import Mathlib

/-!
Verification of the patch-package core of `src/main.py` (class `PatchLogic`):
`create_patch` (lines 79-155) and `apply_patch` (lines 157-255).

Modelling conventions (shallow embedding):
* A directory tree is a finite association list from slash-normalized
  relative paths (as produced by `Path.relative_to(...).as_posix()`) to the
  file's byte content.  Byte strings are `List Nat`.
* The external capabilities are parameters, exactly as the spec scopes them
  out: `hashFn` models `hashlib.sha256(...).hexdigest()` (a pure function of
  the file's content), `dc`/`da` model `detools.create_patch` /
  `detools.apply_patch` (`da` returns `none` on a malformed delta), and the
  zstd/tar container round trip is modelled by passing the structured
  `Package` value from writer to reader (the spec declares compression a
  byte-exact external round trip).
* `os.sep` is modelled as `"/"` (POSIX).
* The filesystem state seen by `apply_patch` is the file map plus the set of
  directories created by `Path.mkdir(parents=True, exist_ok=True)`; a path is
  a directory when it was explicitly created or is a proper directory prefix
  of an existing file.
* Cooperative cancellation is modelled for `create_patch` (`cancelAt` gives
  the loop-iteration index at which `cancel_event` is first seen set), and a
  mid-write I/O failure of the final archive write by `writeFails`.  No claim
  below concerns cancellation inside `apply_patch`, so its runs are modelled
  with the cancel event never set.
-/

namespace PatcherUI

abbrev Bytes := List Nat
abbrev Digest := List Nat
abbrev RelPath := String
abbrev Tree := List (RelPath × Bytes)

/-! ### Association-list primitives (Python `dict` / scratch-directory files) -/

/-- First-match lookup in an association list. -/
def alLookup {β : Type} (l : List (String × β)) (k : String) : Option β :=
  match l with
  | [] => none
  | e :: t => if e.1 = k then some e.2 else alLookup t k

/-- Overwrite-or-append update, the semantics of writing a file into a
directory that may already contain it, and of `dict.__setitem__`. -/
def alUpsert {β : Type} (l : List (String × β)) (k : String) (v : β) :
    List (String × β) :=
  match l with
  | [] => [(k, v)]
  | e :: t => if e.1 = k then (k, v) :: t else e :: alUpsert t k v

/-- Remove every binding of a key (`os.remove`; keys are unique in a real
directory tree, so this agrees with removing the single file). -/
def alErase {β : Type} (l : List (String × β)) (k : String) :
    List (String × β) :=
  match l with
  | [] => []
  | e :: t => if e.1 = k then alErase t k else e :: alErase t k

def alKeys {β : Type} (l : List (String × β)) : List String :=
  l.map Prod.fst

/-! ### Character-level string utilities -/

/-- Boolean list-prefix test used to talk about directory prefixes. -/
def listPre : List Char → List Char → Bool
  | [], _ => true
  | _ :: _, [] => false
  | a :: as, b :: bs => decide (a = b) && listPre as bs

/-- Python `str.replace("/", "__")` specialised to its single-character
pattern: every `'/'` becomes `"__"`. -/
def escCore : List Char → List Char
  | [] => []
  | c :: rest =>
    if decide (c = '/') then '_' :: '_' :: escCore rest
    else c :: escCore rest

/-- Python `str.replace("__", "/")`: leftmost, non-overlapping occurrences of
`"__"` become `"/"` (so `"___"` ↦ `"/_"` and `"____"` ↦ `"//"`). -/
def unescCore : List Char → List Char
  | [] => []
  | [c] => [c]
  | c1 :: c2 :: rest =>
    if decide (c1 = '_') && decide (c2 = '_') then '/' :: unescCore rest
    else c1 :: unescCore (c2 :: rest)

/-- `rel_path.replace("/", "__")` (main.py lines 109 and 133). -/
def escapePath (p : RelPath) : String :=
  ⟨escCore p.data⟩

/-- `rel_path_safe.replace("__", os.sep)` (main.py line 195, `os.sep = "/"`). -/
def unescapeName (n : String) : String :=
  ⟨unescCore n.data⟩

/-- `os.path.splitext` restricted to a bare file name (tar member base names
contain no separator): split at the last dot, unless every character before
that dot is itself a dot (leading dots do not start an extension). -/
def splitext (s : String) : String × String :=
  let r := s.data.reverse
  let extRev := r.takeWhile (fun c => decide (c ≠ '.'))
  match r.drop extRev.length with
  | [] => (s, "")
  | _ :: beforeRev =>
    if beforeRev.any (fun c => decide (c ≠ '.')) then
      (⟨beforeRev.reverse⟩, ⟨'.' :: extRev.reverse⟩)
    else
      (s, "")

/-- The relative path `apply_patch` recovers from a container member name
(main.py lines 193-195). -/
def recoveredRel (name : String) : RelPath :=
  unescapeName (splitext name).1

/-- Split a character list at `'/'` (components of a relative path). -/
def splitOnSlash : List Char → List (List Char)
  | [] => [[]]
  | c :: rest =>
    let r := splitOnSlash rest
    if decide (c = '/') then [] :: r
    else
      match r with
      | h :: t => (c :: h) :: t
      | [] => [[c]]

def componentsOf (p : RelPath) : List String :=
  (splitOnSlash p.data).map (fun cs => ⟨cs⟩)

/-- Proper directory prefixes of a relative path, in ascending length:
`ancestorsOf "a/b/c" = ["a", "a/b"]`.  These are the directories
`target_file.parent.mkdir(parents=True, exist_ok=True)` creates. -/
def ancAux (acc : List Char) : List Char → List RelPath
  | [] => []
  | c :: rest =>
    if decide (c = '/') then ⟨acc.reverse⟩ :: ancAux (c :: acc) rest
    else ancAux (c :: acc) rest

def ancestorsOf (p : RelPath) : List RelPath :=
  ancAux [] p.data

/-- `d` names a directory on the way to `q` (i.e. `d ++ "/"` starts `q`). -/
def dirPre (d q : RelPath) : Bool :=
  listPre (d.data ++ ['/']) q.data

/-- Lexical resolution of `Path(game_dir) / rel`: the result stays inside the
target root iff `rel` is not absolute and its `..` components never climb
above the root (the target root itself is assumed not to be the filesystem
root). -/
def insideAux : List String → Nat → Bool
  | [], _ => true
  | c :: rest, d =>
    if decide (c = "") || decide (c = ".") then insideAux rest d
    else if decide (c = "..") then
      match d with
      | 0 => false
      | Nat.succ d' => insideAux rest d'
    else insideAux rest (d + 1)

def resolvesInside (rel : RelPath) : Bool :=
  match rel.data with
  | [] => true
  | c :: _ => if decide (c = '/') then false else insideAux (componentsOf rel) 0

/-! ### The package data model (§3 of the spec, main.py lines 104-150) -/

/-- One manifest record: `{"sha256": ..., "size": ...}` (main.py 104-107). -/
structure FileInfo where
  sha256 : Digest
  size : Nat
deriving DecidableEq

abbrev Manifest := List (RelPath × FileInfo)

/-- The logical content of the `.tar.zst` container: the named entry blobs
(scratch files `<escaped>.patch|.full|.delete`) in container order, plus the
parsed `manifest.json`.  The zstd/tar serialization is the byte-exact
external round trip of §1/§6 of the spec and is elided. -/
structure Package where
  entries : List (String × Bytes)
  manifest : Manifest
deriving DecidableEq

instance {ε α : Type} [DecidableEq ε] [DecidableEq α] :
    DecidableEq (Except ε α) := fun
  | .error e, .error f =>
    if h : e = f then .isTrue (h ▸ rfl)
    else .isFalse (fun hh => h (by injection hh))
  | .error _, .ok _ => .isFalse (fun hh => Except.noConfusion hh)
  | .ok _, .error _ => .isFalse (fun hh => Except.noConfusion hh)
  | .ok a, .ok b =>
    if h : a = b then .isTrue (h ▸ rfl)
    else .isFalse (fun hh => h (by injection hh))

/-- What is on disk at the destination package path after a creation run. -/
inductive DestFile
  | absent
  | halfWritten
  | complete (pkg : Package)
deriving DecidableEq

inductive CreateErr
  | cancelled
  | isADirectory (p : RelPath)
  | writeFailed
deriving DecidableEq

structure CreateResult where
  outcome : Except CreateErr Package
  dest : DestFile
deriving DecidableEq

/-- `(root / rel_path).exists()`: true when the path is a file of the tree or
a directory on the way to one. -/
def existsInTree (t : Tree) (p : RelPath) : Bool :=
  (alLookup t p).isSome || t.any (fun e => dirPre p e.1)

/-- Content of a `.delete` marker: `patch_file.write_text("DELETE")`
(main.py 135). -/
def deleteBytes : Bytes :=
  "DELETE".data.map Char.toNat

/-- Decision taken for one file of the new tree (main.py 109-124):
skip when the old file exists with identical bytes (`filecmp.cmp`,
`shallow=False`), emit `<name>.patch` with a detools delta when it exists
with different bytes, fail when the old path is a directory (opening it for
`detools.create_patch` raises), and emit `<name>.full` otherwise. -/
def entryForNew (dc : Bytes → Bytes → Bytes) (oldT : Tree)
    (pc : RelPath × Bytes) : Except CreateErr (Option (String × Bytes)) :=
  match alLookup oldT pc.1 with
  | some co =>
    if decide (co = pc.2) then .ok none
    else .ok (some (escapePath pc.1 ++ ".patch", dc co pc.2))
  | none =>
    if existsInTree oldT pc.1 then .error (.isADirectory pc.1)
    else .ok (some (escapePath pc.1 ++ ".full", pc.2))

/-- First creation loop (main.py 98-127) over the files of the new tree:
checks cancellation, records the manifest entry, then emits at most one
scratch entry per file.  `idx` numbers the `_check_cancel` call sites. -/
def createLoopNew (hashFn : Bytes → Digest) (dc : Bytes → Bytes → Bytes)
    (oldT : Tree) (cancelAt : Option Nat) :
    List (RelPath × Bytes) → Nat → Manifest →
    Except CreateErr (List (String × Bytes) × Manifest × Nat)
  | [], idx, m => .ok ([], m, idx)
  | pc :: rest, idx, m =>
    if decide (cancelAt = some idx) then .error .cancelled
    else
      let m1 := alUpsert m pc.1 ⟨hashFn pc.2, pc.2.length⟩
      match entryForNew dc oldT pc with
      | .error e => .error e
      | .ok none => createLoopNew hashFn dc oldT cancelAt rest (idx + 1) m1
      | .ok (some ent) =>
        match createLoopNew hashFn dc oldT cancelAt rest (idx + 1) m1 with
        | .error e => .error e
        | .ok (es, m2, i2) => .ok (ent :: es, m2, i2)

/-- Second creation loop (main.py 129-139) over the files of the old tree:
emits a `.delete` marker for every old path absent from the new tree. -/
def createLoopOld (newT : Tree) (cancelAt : Option Nat) :
    List (RelPath × Bytes) → Nat → Except CreateErr (List (String × Bytes))
  | [], _ => .ok []
  | pc :: rest, idx =>
    if decide (cancelAt = some idx) then .error .cancelled
    else
      match createLoopOld newT cancelAt rest (idx + 1) with
      | .error e => .error e
      | .ok es =>
        if existsInTree newT pc.1 then .ok es
        else .ok ((escapePath pc.1 ++ ".delete", deleteBytes) :: es)

/-- `PatchLogic.create_patch` (main.py 79-155).  The scratch directory is the
fold of file writes (later writes to a colliding name overwrite earlier
ones); the destination file is opened directly (`open(patch_package, "wb")`,
line 147), so a failure during the archive write (`writeFails`) leaves a
half-written file there, while any earlier failure leaves nothing (the
`finally` removes only the scratch directory). -/
def create_patch (hashFn : Bytes → Digest) (dc : Bytes → Bytes → Bytes)
    (oldT newT : Tree) (cancelAt : Option Nat) (writeFails : Bool) :
    CreateResult :=
  match createLoopNew hashFn dc oldT cancelAt newT 0 [] with
  | .error e => ⟨.error e, .absent⟩
  | .ok (es1, mf, idx) =>
    match createLoopOld newT cancelAt oldT idx with
    | .error e => ⟨.error e, .absent⟩
    | .ok es2 =>
      let pkg : Package :=
        ⟨(es1 ++ es2).foldl (fun acc e => alUpsert acc e.1 e.2) [], mf⟩
      if writeFails then ⟨.error .writeFailed, .halfWritten⟩
      else ⟨.ok pkg, .complete pkg⟩

/-! ### The target-tree state and `apply_patch` (main.py 157-255) -/

/-- Target-tree state during application: the files under `game_dir`
(root-relative keys) plus the directories created explicitly by
`mkdir(parents=True, exist_ok=True)`. -/
structure FS where
  files : Tree
  dirs : List RelPath
deriving DecidableEq

/-- `p` is an existing directory of the target tree. -/
def isDirIn (fs : FS) (p : RelPath) : Bool :=
  fs.dirs.any (fun d => decide (d = p)) || fs.files.any (fun e => dirPre p e.1)

/-- `target_file.parent.mkdir(parents=True, exist_ok=True)` raises when an
ancestor of the target is an existing regular file. -/
def mkdirFails (files : Tree) (rel : RelPath) : Bool :=
  (ancestorsOf rel).any (fun a => (alLookup files a).isSome)

def addDir (ds : List RelPath) (d : RelPath) : List RelPath :=
  if ds.any (fun x => decide (x = d)) then ds else ds ++ [d]

/-- Create the missing parent directories of `rel` (main.py 201). -/
def withParents (fs : FS) (rel : RelPath) : FS :=
  ⟨fs.files, (ancestorsOf rel).foldl addDir fs.dirs⟩

inductive ApplyErr
  | missingBase (p : RelPath)
  | corruptDelta (p : RelPath)
  | ioError (p : RelPath)
  | validationFailed (errs : List String)
deriving DecidableEq

/-- One iteration of the application loop (main.py 190-224), threading the
target state `fs` and the rollback directory `rb`.  On an exception the
state at the moment the exception escapes is returned with the error.
`.patch` reconstruction writes the scratch file `<target>.tmp` first and
publishes it with `os.replace`; when `detools.apply_patch` fails the scratch
file stays behind (its partially written bytes are modelled as `[]`; only
its presence matters below). -/
def applyEntry (da : Bytes → Bytes → Option Bytes) (fs : FS) (rb : Tree)
    (name : String) (content : Bytes) :
    Except (ApplyErr × FS × Tree) (FS × Tree) :=
  let ext := (splitext name).2
  let rel := recoveredRel name
  if mkdirFails fs.files rel then .error (.ioError rel, fs, rb)
  else
    let fs1 := withParents fs rel
    -- snapshot the target into the rollback directory when it exists
    -- (main.py 203-206); `shutil.copy2` of a directory raises.
    let snap : Except (ApplyErr × FS × Tree) Tree :=
      match alLookup fs1.files rel with
      | some cur => .ok (alUpsert rb rel cur)
      | none =>
        if isDirIn fs1 rel then .error (.ioError rel, fs1, rb) else .ok rb
    match snap with
    | .error e => .error e
    | .ok rb1 =>
      if decide (ext = ".patch") then
        match alLookup fs1.files rel with
        | none => .error (.missingBase rel, fs1, rb1)
        | some base =>
          let tmp := rel ++ ".tmp"
          if isDirIn fs1 tmp then .error (.ioError tmp, fs1, rb1)
          else
            let fs2 : FS := ⟨alUpsert fs1.files tmp [], fs1.dirs⟩
            match da base content with
            | some nb =>
              .ok (⟨alUpsert (alErase fs2.files tmp) rel nb, fs2.dirs⟩, rb1)
            | none => .error (.corruptDelta rel, fs2, rb1)
      else if decide (ext = ".full") then
        if isDirIn fs1 rel then
          -- unreachable: an existing directory target already failed at the
          -- snapshot step above.
          .error (.ioError rel, fs1, rb1)
        else .ok (⟨alUpsert fs1.files rel content, fs1.dirs⟩, rb1)
      else if decide (ext = ".delete") then
        match alLookup fs1.files rel with
        | some _ => .ok (⟨alErase fs1.files rel, fs1.dirs⟩, rb1)
        | none => .ok (fs1, rb1)
      else .ok (fs1, rb1)

/-- The application loop over the extracted container members, in container
order (main.py 190-224). -/
def applyEntries (da : Bytes → Bytes → Option Bytes) :
    List (String × Bytes) → FS → Tree →
    Except (ApplyErr × FS × Tree) (FS × Tree)
  | [], fs, rb => .ok (fs, rb)
  | e :: rest, fs, rb =>
    match applyEntry da fs rb e.1 e.2 with
    | .error x => .error x
    | .ok (fs', rb') => applyEntries da rest fs' rb'

/-- Post-apply validation (main.py 226-233): walk the manifest in order and
collect, in order, a message for every missing path or digest mismatch.
Recomputing the digest of a path that is now a directory raises
(`open(dir)`), modelled as `.error` with the offending path. -/
def validateManifest (hashFn : Bytes → Digest) :
    Manifest → FS → Except RelPath (List String)
  | [], _ => .ok []
  | (p, info) :: rest, fs =>
    match alLookup fs.files p with
    | some c =>
      match validateManifest hashFn rest fs with
      | .error q => .error q
      | .ok errs =>
        if decide (hashFn c = info.sha256) then .ok errs
        else .ok (("Hash mismatch: " ++ p) :: errs)
    | none =>
      if isDirIn fs p then .error p
      else
        match validateManifest hashFn rest fs with
        | .error q => .error q
        | .ok errs => .ok (("Missing file: " ++ p) :: errs)

/-- The `except` handler (main.py 241-252): copy every snapshot back over
its target path, creating parent directories as needed.  Rollback itself is
assumed not to fail (no claim concerns a failing rollback). -/
def restoreBackups (fs : FS) (rb : Tree) : FS :=
  rb.foldl (fun acc e =>
    let acc1 := withParents acc e.1
    ⟨alUpsert acc1.files e.1 e.2, acc1.dirs⟩) fs

/-- Result of one application run: the terminal outcome, the final target
state (after rollback, when a failure occurred), the final content of the
rollback directory, and the target state at the moment the exception was
caught (equal to the final state on success). -/
structure ApplyResult where
  outcome : Except ApplyErr Unit
  fs : FS
  rb : Tree
  fsAtCatch : FS
deriving DecidableEq

/-- `PatchLogic.apply_patch` (main.py 157-255) on an already-extracted
package: apply every entry in container order, then validate every manifest
record; any exception — including the `ValueError` raised on a non-empty
validation error list (line 237) — is caught by the handler at line 241,
which restores all snapshots and re-raises. -/
def apply_patch (hashFn : Bytes → Digest) (da : Bytes → Bytes → Option Bytes)
    (pkg : Package) (fs0 : FS) : ApplyResult :=
  match applyEntries da pkg.entries fs0 [] with
  | .error (e, fsE, rbE) => ⟨.error e, restoreBackups fsE rbE, rbE, fsE⟩
  | .ok (fs1, rb1) =>
    match validateManifest hashFn pkg.manifest fs1 with
    | .error p => ⟨.error (.ioError p), restoreBackups fs1 rb1, rb1, fs1⟩
    | .ok [] => ⟨.ok (), fs1, rb1, fs1⟩
    | .ok errs => ⟨.error (.validationFailed errs), restoreBackups fs1 rb1, rb1, fs1⟩

/-! ### Concrete stand-ins for the external capabilities (used in witnesses)

`idHash` is an injective content digest standing in for SHA-256; `dcId`
stores the new content as the delta and `daId` replays it, satisfying the
external contract `da o (dc o n) = some n`; `daFail` models a delta whose
reconstruction always fails. -/

def idHash : Bytes → Digest := fun b => b

def dcId : Bytes → Bytes → Bytes := fun _ n => n

def daId : Bytes → Bytes → Option Bytes := fun _ d => some d

def daFail : Bytes → Bytes → Option Bytes := fun _ _ => none

/-! ### Well-behaved tree pairs

`SafeTrees` collects the conditions under which the container-name mapping
is faithful and the two trees do not interfere on the filesystem: path lists
are duplicate-free, every path survives the escape/unescape round trip
(which fails for paths containing `"__"` or an `"_"` adjacent to a
separator), has a non-dot character (so `os.path.splitext` finds the kind
suffix), no path of either tree is a directory prefix of a path of either
tree, and no path collides with the `<target>.tmp` scratch name of another.
Real directory trees violating these exist — the corrected claims below
exhibit them — so they are genuine hypotheses, not tautologies. -/

def allPaths (oldT newT : Tree) : List RelPath :=
  alKeys oldT ++ alKeys newT

structure SafeTrees (oldT newT : Tree) : Prop where
  nodupOld : (alKeys oldT).Nodup
  nodupNew : (alKeys newT).Nodup
  roundName : ∀ p ∈ allPaths oldT newT, unescapeName (escapePath p) = p
  nonDot : ∀ p ∈ allPaths oldT newT,
    (escapePath p).data.any (fun c => decide (c ≠ '.')) = true
  noConflict : ∀ p ∈ allPaths oldT newT, ∀ q ∈ allPaths oldT newT,
    dirPre p q = false
  noTmp : ∀ p ∈ allPaths oldT newT, ∀ q ∈ allPaths oldT newT,
    q ≠ p ++ ".tmp" ∧ dirPre (p ++ ".tmp") q = false

/-! ### Association-list lemmas -/

theorem alKeys_nil {β : Type} : alKeys ([] : List (String × β)) = [] := rfl

theorem alKeys_cons {β : Type} (e : String × β) (t : List (String × β)) :
    alKeys (e :: t) = e.1 :: alKeys t := rfl

theorem alLookup_upsert {β : Type} (l : List (String × β)) (k k' : String)
    (v : β) :
    alLookup (alUpsert l k v) k' =
      if k = k' then some v else alLookup l k' := by
  induction l with
  | nil =>
    by_cases h : k = k' <;> simp [alUpsert, alLookup, h]
  | cons e t ih =>
    by_cases he : e.1 = k
    · by_cases h : k = k'
      · subst h
        simp [alUpsert, alLookup, he]
      · have hne : ¬ e.1 = k' := fun hc => h (he.symm.trans hc)
        simp [alUpsert, alLookup, he, h, hne]
    · by_cases h : e.1 = k'
      · subst h
        have hkk : ¬ k = e.1 := fun hc => he hc.symm
        simp [alUpsert, alLookup, he, hkk]
      · simp [alUpsert, alLookup, he, h, ih]

theorem alLookup_erase {β : Type} (l : List (String × β)) (k k' : String) :
    alLookup (alErase l k) k' =
      if k = k' then none else alLookup l k' := by
  induction l with
  | nil =>
    by_cases h : k = k' <;> simp [alErase, alLookup, h]
  | cons e t ih =>
    by_cases he : e.1 = k
    · by_cases h : k = k'
      · subst h
        simp [alErase, alLookup, he, ih]
      · have hne : ¬ e.1 = k' := fun hc => h (he.symm.trans hc)
        simp [alErase, alLookup, he, h, hne, ih]
    · by_cases h : e.1 = k'
      · subst h
        have hkk : ¬ k = e.1 := fun hc => he hc.symm
        simp [alErase, alLookup, he, hkk]
      · simp [alErase, alLookup, he, h, ih]

theorem alLookup_eq_none_iff {β : Type} (l : List (String × β)) (k : String) :
    alLookup l k = none ↔ k ∉ alKeys l := by
  induction l with
  | nil => simp [alLookup, alKeys]
  | cons e t ih =>
    by_cases h : e.1 = k
    · simp [alLookup, alKeys, h]
    · simp only [alLookup, h, if_false, alKeys, List.map_cons,
        List.mem_cons, ih]
      constructor
      · intro hn hc
        rcases hc with hc | hc
        · exact h hc.symm
        · exact hn hc
      · intro hn hk
        exact hn (Or.inr hk)

theorem alLookup_isSome_iff {β : Type} (l : List (String × β)) (k : String) :
    (alLookup l k).isSome = true ↔ k ∈ alKeys l := by
  rcases h : alLookup l k with _ | v
  · simpa using (alLookup_eq_none_iff l k).mp h
  · simp only [Option.isSome_some, true_iff]
    by_contra hk
    rw [(alLookup_eq_none_iff l k).mpr hk] at h
    exact Option.noConfusion h

theorem alUpsert_of_fresh {β : Type} (l : List (String × β)) (k : String)
    (v : β) (h : k ∉ alKeys l) : alUpsert l k v = l ++ [(k, v)] := by
  induction l with
  | nil => rfl
  | cons e t ih =>
    have h1 : ¬ e.1 = k := fun he => h (by simp [alKeys, he])
    have h2 : k ∉ alKeys t := fun hk => h (by
      simp only [alKeys, List.map_cons, List.mem_cons]
      exact Or.inr hk)
    simp [alUpsert, h1, ih h2]

theorem alErase_of_fresh {β : Type} (l : List (String × β)) (k : String)
    (h : k ∉ alKeys l) : alErase l k = l := by
  induction l with
  | nil => rfl
  | cons e t ih =>
    have h1 : ¬ e.1 = k := fun he => h (by simp [alKeys, he])
    have h2 : k ∉ alKeys t := fun hk => h (by
      simp only [alKeys, List.map_cons, List.mem_cons]
      exact Or.inr hk)
    simp [alErase, h1, ih h2]

theorem alErase_append {β : Type} (a b : List (String × β)) (k : String) :
    alErase (a ++ b) k = alErase a k ++ alErase b k := by
  induction a with
  | nil => rfl
  | cons e t ih =>
    by_cases h : e.1 = k <;> simp [alErase, h, ih]

theorem alErase_alUpsert_of_fresh {β : Type} (l : List (String × β))
    (k : String) (v : β) (h : k ∉ alKeys l) :
    alErase (alUpsert l k v) k = l := by
  rw [alUpsert_of_fresh l k v h, alErase_append, alErase_of_fresh l k h]
  simp [alErase]

theorem alKeys_upsert_of_mem {β : Type} (l : List (String × β)) (k : String)
    (v : β) (h : k ∈ alKeys l) : alKeys (alUpsert l k v) = alKeys l := by
  induction l with
  | nil => simp [alKeys] at h
  | cons e t ih =>
    by_cases he : e.1 = k
    · simp [alUpsert, he, alKeys]
    · have hm : k ∈ alKeys t := by
        rcases (by simpa [alKeys_cons] using h : k = e.1 ∨ k ∈ alKeys t) with
          hc | hc
        · exact absurd hc.symm he
        · exact hc
      simp [alUpsert, he, alKeys_cons, ih hm]

theorem alKeys_upsert_nodup {β : Type} (l : List (String × β)) (k : String)
    (v : β) (h : (alKeys l).Nodup) : (alKeys (alUpsert l k v)).Nodup := by
  by_cases hm : k ∈ alKeys l
  · rw [alKeys_upsert_of_mem l k v hm]
    exact h
  · rw [alUpsert_of_fresh l k v hm]
    simp only [alKeys, List.map_append, List.map_cons, List.map_nil]
    rw [List.nodup_append]
    refine ⟨h, List.nodup_singleton k, ?_⟩
    intro a ha hb
    rw [List.mem_singleton] at hb
    subst hb
    exact hm ha

theorem alLookup_of_mem_nodup {β : Type} (l : List (String × β))
    (k : String) (v : β) (hn : (alKeys l).Nodup) (hm : (k, v) ∈ l) :
    alLookup l k = some v := by
  induction l with
  | nil => simp at hm
  | cons e t ih =>
    simp only [alKeys, List.map_cons, List.nodup_cons] at hn
    rcases List.mem_cons.mp hm with he | ht
    · simp [alLookup, ← he]
    · have hne : ¬ e.1 = k := by
        intro hk
        exact hn.1 (hk ▸ List.mem_map.mpr ⟨(k, v), ht, rfl⟩)
      simp [alLookup, hne, ih hn.2 ht]

theorem foldl_alUpsert_of_nodup {β : Type} (l : List (String × β)) :
    ∀ acc : List (String × β), (alKeys acc ++ alKeys l).Nodup →
    l.foldl (fun a e => alUpsert a e.1 e.2) acc = acc ++ l := by
  induction l with
  | nil => intro acc _; simp
  | cons e t ih =>
    intro acc h
    have hfresh : e.1 ∉ alKeys acc := by
      intro hk
      exact (List.disjoint_of_nodup_append h) hk (by simp [alKeys])
    rw [List.foldl_cons, alUpsert_of_fresh acc e.1 e.2 hfresh,
      ih (acc ++ [(e.1, e.2)]) ?_]
    · simp
    · have hkeys : alKeys (acc ++ [(e.1, e.2)]) = alKeys acc ++ [e.1] := by
        simp [alKeys]
      rw [hkeys, List.append_assoc, List.singleton_append]
      simpa [alKeys] using h

/-! ### String and path lemmas -/

theorem strMk_data (s : String) : (⟨s.data⟩ : String) = s := rfl

theorem strData_append (a b : String) : (a ++ b).data = a.data ++ b.data := rfl

theorem anyRev {α : Type} (l : List α) (p : α → Bool) :
    l.reverse.any p = l.any p := by
  rcases h : l.any p with _ | _
  · rcases hr : l.reverse.any p with _ | _
    · rfl
    · obtain ⟨x, hx, hpx⟩ := List.any_eq_true.mp hr
      rw [List.mem_reverse] at hx
      rw [List.any_eq_true.mpr ⟨x, hx, hpx⟩] at h
      exact h
  · obtain ⟨x, hx, hpx⟩ := List.any_eq_true.mp h
    exact List.any_eq_true.mpr ⟨x, List.mem_reverse.mpr hx, hpx⟩

theorem takeWhile_append_stop {α : Type} (p : α → Bool) (xs : List α) (y : α)
    (ys : List α) (hxs : ∀ c ∈ xs, p c = true) (hy : p y = false) :
    (xs ++ y :: ys).takeWhile p = xs := by
  induction xs with
  | nil => simp [List.takeWhile, hy]
  | cons a t ih =>
    have ha : p a = true := hxs a (List.mem_cons_self a t)
    simp [List.takeWhile, ha, ih (fun c hc => hxs c (List.mem_cons_of_mem a hc))]

/-- `os.path.splitext` of a base name followed by a dot-free extension body
splits exactly there, provided the base name has a non-dot character. -/
theorem splitext_append (s : String) (w : List Char)
    (hw : ∀ c ∈ w, ¬ c = '.')
    (hs : s.data.any (fun c => decide (c ≠ '.')) = true) :
    splitext ⟨s.data ++ '.' :: w⟩ = (s, ⟨'.' :: w⟩) := by
  have hr : (s.data ++ '.' :: w).reverse =
      w.reverse ++ '.' :: s.data.reverse := by
    simp [List.reverse_append]
  have htw : (w.reverse ++ '.' :: s.data.reverse).takeWhile
      (fun c => decide (c ≠ '.')) = w.reverse := by
    refine takeWhile_append_stop _ _ _ _ ?_ (by simp)
    intro c hc
    simp [hw c (List.mem_reverse.mp hc)]
  have hdrop : (w.reverse ++ '.' :: s.data.reverse).drop w.reverse.length =
      '.' :: s.data.reverse := List.drop_left _ _
  unfold splitext
  simp only [hr, htw, hdrop]
  rw [anyRev s.data (fun c => decide (c ≠ '.'))]
  simp [hs, List.reverse_reverse, strMk_data]
  intro hall
  obtain ⟨x, hx, hpx⟩ := List.any_eq_true.mp hs
  exact absurd (hall x hx) (by simpa using hpx)

/-- Container member names built from distinct kinds or distinct escaped
names are distinct: appending one of the three kind suffixes is injective in
both arguments. -/
theorem append_kind_inj (a b : String) (x y : String)
    (hx : x = ".patch" ∨ x = ".full" ∨ x = ".delete")
    (hy : y = ".patch" ∨ y = ".full" ∨ y = ".delete")
    (h : a ++ x = b ++ y) : a = b ∧ x = y := by
  have hd : a.data ++ x.data = b.data ++ y.data := by
    have := congrArg String.data h
    simpa [strData_append] using this
  have hrev : x.data.reverse ++ a.data.reverse =
      y.data.reverse ++ b.data.reverse := by
    have := congrArg List.reverse hd
    simpa [List.reverse_append] using this
  have hstr : a.data = b.data → a = b := by
    intro hab
    calc a = ⟨a.data⟩ := (strMk_data a).symm
    _ = ⟨b.data⟩ := by rw [hab]
    _ = b := strMk_data b
  have ep : (String.data (".patch")).reverse = ['h','c','t','a','p','.'] := rfl
  have ef : (String.data (".full")).reverse = ['l','l','u','f','.'] := rfl
  have ed : (String.data (".delete")).reverse =
    ['e','t','e','l','e','d','.'] := rfl
  rcases hx with hx | hx | hx <;> subst hx <;>
    rcases hy with hy | hy | hy <;> subst hy
  · refine ⟨?_, rfl⟩
    have h2 := (List.append_inj hrev rfl).2
    have h3 := congrArg List.reverse h2
    simp only [List.reverse_reverse] at h3
    exact hstr h3
  · exfalso
    rw [ep, ef] at hrev
    simp only [List.cons_append] at hrev
    injection hrev with h1 _
    exact absurd h1 (by decide)
  · exfalso
    rw [ep, ed] at hrev
    simp only [List.cons_append] at hrev
    injection hrev with h1 _
    exact absurd h1 (by decide)
  · exfalso
    rw [ef, ep] at hrev
    simp only [List.cons_append] at hrev
    injection hrev with h1 _
    exact absurd h1 (by decide)
  · refine ⟨?_, rfl⟩
    have h2 := (List.append_inj hrev rfl).2
    have h3 := congrArg List.reverse h2
    simp only [List.reverse_reverse] at h3
    exact hstr h3
  · exfalso
    rw [ef, ed] at hrev
    simp only [List.cons_append] at hrev
    injection hrev with h1 _
    exact absurd h1 (by decide)
  · exfalso
    rw [ed, ep] at hrev
    simp only [List.cons_append] at hrev
    injection hrev with h1 _
    exact absurd h1 (by decide)
  · exfalso
    rw [ed, ef] at hrev
    simp only [List.cons_append] at hrev
    injection hrev with h1 _
    exact absurd h1 (by decide)
  · refine ⟨?_, rfl⟩
    have h2 := (List.append_inj hrev rfl).2
    have h3 := congrArg List.reverse h2
    simp only [List.reverse_reverse] at h3
    exact hstr h3

/-- `splitext` of an escaped path followed by one of the three kind suffixes
recovers the escaped path and the suffix (the suffix bodies are dot-free). -/
theorem splitext_kind (s : String) (ext : String)
    (hext : ext = ".patch" ∨ ext = ".full" ∨ ext = ".delete")
    (hs : s.data.any (fun c => decide (c ≠ '.')) = true) :
    splitext (s ++ ext) = (s, ext) := by
  rcases hext with he | he | he <;> subst he
  · have : s ++ (".patch") = ⟨s.data ++ '.' :: ('p' :: 'a' :: 't' :: 'c' :: 'h' :: [])⟩ := rfl
    rw [this, splitext_append s _ (by decide) hs]
  · have : s ++ (".full") = ⟨s.data ++ '.' :: ('f' :: 'u' :: 'l' :: 'l' :: [])⟩ := rfl
    rw [this, splitext_append s _ (by decide) hs]
  · have : s ++ (".delete") = ⟨s.data ++ '.' :: ('d' :: 'e' :: 'l' :: 'e' :: 't' :: 'e' :: [])⟩ := rfl
    rw [this, splitext_append s _ (by decide) hs]

/-- The reader's recovered path inverts the writer's name mapping for paths
that survive the escape/unescape round trip. -/
theorem recoveredRel_kind (p : RelPath) (ext : String)
    (hext : ext = ".patch" ∨ ext = ".full" ∨ ext = ".delete")
    (hr : unescapeName (escapePath p) = p)
    (hs : (escapePath p).data.any (fun c => decide (c ≠ '.')) = true) :
    recoveredRel (escapePath p ++ ext) = p ∧
      (splitext (escapePath p ++ ext)).2 = ext := by
  rw [recoveredRel, splitext_kind (escapePath p) ext hext hs]
  exact ⟨hr, rfl⟩

/-! ### Ancestor and directory-prefix lemmas -/

theorem listPre_append_self (x y : List Char) : listPre x (x ++ y) = true := by
  induction x with
  | nil => rfl
  | cons c t ih => simp [listPre, ih]

theorem ancAux_spec (l : List Char) :
    ∀ (acc : List Char) (a : RelPath), a ∈ ancAux acc l →
      ∃ suffix, acc.reverse ++ l = a.data ++ '/' :: suffix := by
  induction l with
  | nil => intro acc a ha; simp [ancAux] at ha
  | cons c rest ih =>
    intro acc a ha
    by_cases hc : c = '/'
    · subst hc
      simp only [ancAux, decide_eq_true_eq, if_pos rfl] at ha
      rcases List.mem_cons.mp ha with he | ht
      · exact ⟨rest, by rw [he]⟩
      · obtain ⟨suffix, hsfx⟩ := ih ('/' :: acc) a ht
        refine ⟨suffix, ?_⟩
        have : ('/' :: acc).reverse ++ rest = acc.reverse ++ '/' :: rest := by
          simp
        rw [← this, hsfx]
    · simp only [ancAux, decide_eq_true_eq, if_neg hc] at ha
      obtain ⟨suffix, hsfx⟩ := ih (c :: acc) a ha
      refine ⟨suffix, ?_⟩
      have : (c :: acc).reverse ++ rest = acc.reverse ++ c :: rest := by simp
      rw [← this, hsfx]

/-- Every ancestor produced by `mkdir(parents=True)` is a directory prefix
of its target. -/
theorem ancestorsOf_dirPre (a p : RelPath) (h : a ∈ ancestorsOf p) :
    dirPre a p = true := by
  obtain ⟨suffix, hsfx⟩ := ancAux_spec p.data [] a (by simpa [ancestorsOf] using h)
  simp only [List.reverse_nil, List.nil_append] at hsfx
  rw [dirPre]
  have : p.data = (a.data ++ ['/']) ++ suffix := by
    rw [hsfx]
    simp
  rw [this]
  exact listPre_append_self _ _

theorem foldl_addDir_mem (as : List RelPath) :
    ∀ (ds : List RelPath) (d : RelPath), d ∈ as.foldl addDir ds →
      d ∈ ds ∨ d ∈ as := by
  induction as with
  | nil => intro ds d h; exact Or.inl (by simpa using h)
  | cons a t ih =>
    intro ds d h
    rcases ih (addDir ds a) d (by simpa using h) with h1 | h1
    · by_cases hm : ds.any (fun x => decide (x = a)) = true
      · rw [addDir, if_pos hm] at h1
        exact Or.inl h1
      · rw [addDir, if_neg hm] at h1
        rcases List.mem_append.mp h1 with h2 | h2
        · exact Or.inl h2
        · exact Or.inr (by simp [List.mem_singleton.mp h2])
    · exact Or.inr (List.mem_cons_of_mem a h1)

theorem withParents_files (fs : FS) (rel : RelPath) :
    (withParents fs rel).files = fs.files := rfl

theorem withParents_dirs_mem (fs : FS) (rel : RelPath) (d : RelPath)
    (h : d ∈ (withParents fs rel).dirs) :
    d ∈ fs.dirs ∨ d ∈ ancestorsOf rel :=
  foldl_addDir_mem (ancestorsOf rel) fs.dirs d h

/-! ### Rollback lemmas -/

theorem restoreBackups_cons (fs : FS) (e : RelPath × Bytes) (t : Tree) :
    restoreBackups fs (e :: t) =
      restoreBackups
        ⟨alUpsert (withParents fs e.1).files e.1 e.2,
         (withParents fs e.1).dirs⟩ t := rfl

/-- Rollback replays every snapshot (last write wins; with duplicate-free
snapshot keys, the recorded value) and leaves all other paths exactly as
they were when the exception was caught. -/
theorem restoreBackups_lookup (rb : Tree) :
    ∀ (fs : FS) (p : RelPath), (alKeys rb).Nodup →
      alLookup (restoreBackups fs rb).files p =
        match alLookup rb p with
        | some b => some b
        | none => alLookup fs.files p := by
  induction rb with
  | nil => intro fs p _; simp [restoreBackups, alLookup]
  | cons e t ih =>
    intro fs p hn
    simp only [alKeys_cons, List.nodup_cons] at hn
    rw [restoreBackups_cons]
    rw [ih _ p hn.2]
    by_cases hp : e.1 = p
    · subst hp
      have ht : alLookup t e.1 = none := (alLookup_eq_none_iff t e.1).mpr hn.1
      simp [alLookup, ht, alLookup_upsert, withParents_files]
    · simp only [alLookup, hp, if_neg hp]
      rcases hlt : alLookup t p with _ | b
      · simp [alLookup_upsert, withParents_files, hp]
      · rfl

/-! ### Invariants of the application run over a created package -/

/-- Every file of the target state is at a path of one of the two trees. -/
def keysCovered (oldT newT : Tree) (fs : FS) : Prop :=
  ∀ p, (alLookup fs.files p).isSome = true → p ∈ allPaths oldT newT

/-- Every explicitly created directory lies on the way to a tree path. -/
def dirsCovered (oldT newT : Tree) (fs : FS) : Prop :=
  ∀ d ∈ fs.dirs, ∃ q ∈ allPaths oldT newT, dirPre d q = true

theorem alLookup_some_mem {β : Type} (l : List (String × β)) (k : String)
    (v : β) (h : alLookup l k = some v) : (k, v) ∈ l := by
  induction l with
  | nil => exact absurd h (by simp [alLookup])
  | cons e t ih =>
    by_cases he : e.1 = k
    · rw [alLookup, if_pos he] at h
      have hv : e.2 = v := Option.some.inj h
      have hekv : e = (k, v) := by
        obtain ⟨e1, e2⟩ := e
        simp only at he hv
        rw [he, hv]
      rw [← hekv]
      exact List.mem_cons_self e t
    · rw [alLookup, if_neg he] at h
      exact List.mem_cons_of_mem e (ih h)

theorem mem_alKeys_of_lookup {β : Type} (l : List (String × β)) (k : String)
    (h : (alLookup l k).isSome = true) : k ∈ alKeys l :=
  (alLookup_isSome_iff l k).mp h

theorem mkdirFails_false (oldT newT : Tree) (st : SafeTrees oldT newT)
    (fs : FS) (hkc : keysCovered oldT newT fs) (p : RelPath)
    (hp : p ∈ allPaths oldT newT) : mkdirFails fs.files p = false := by
  rw [Bool.eq_false_iff]
  intro hmk
  obtain ⟨a, ha, hsome⟩ := List.any_eq_true.mp hmk
  have hmem : a ∈ allPaths oldT newT := hkc a hsome
  have hdp : dirPre a p = true := ancestorsOf_dirPre a p ha
  rw [st.noConflict a hmem p hp] at hdp
  exact Bool.noConfusion hdp

theorem isDirIn_false (oldT newT : Tree) (st : SafeTrees oldT newT)
    (fs : FS) (hkc : keysCovered oldT newT fs)
    (hdc : dirsCovered oldT newT fs) (p : RelPath)
    (hp : p ∈ allPaths oldT newT) : isDirIn fs p = false := by
  have h1 : fs.dirs.any (fun d => decide (d = p)) = false := by
    rw [Bool.eq_false_iff]
    intro hd
    obtain ⟨d, hd1, hd2⟩ := List.any_eq_true.mp hd
    have hdp : d = p := of_decide_eq_true hd2
    subst hdp
    obtain ⟨q, hq, hpre⟩ := hdc d hd1
    rw [st.noConflict d hp q hq] at hpre
    exact Bool.noConfusion hpre
  have h2 : fs.files.any (fun e => dirPre p e.1) = false := by
    rw [Bool.eq_false_iff]
    intro hf
    obtain ⟨e, he1, he2⟩ := List.any_eq_true.mp hf
    have : e.1 ∈ allPaths oldT newT := by
      apply hkc
      rw [alLookup_isSome_iff]
      exact List.mem_map.mpr ⟨e, he1, rfl⟩
    rw [st.noConflict p hp e.1 this] at he2
    exact Bool.noConfusion he2
  simp [isDirIn, h1, h2]

theorem isDirIn_tmp_false (oldT newT : Tree) (st : SafeTrees oldT newT)
    (fs : FS) (hkc : keysCovered oldT newT fs)
    (hdc : dirsCovered oldT newT fs) (p : RelPath)
    (hp : p ∈ allPaths oldT newT) : isDirIn fs (p ++ ".tmp") = false := by
  have h1 : fs.dirs.any (fun d => decide (d = p ++ ".tmp")) = false := by
    rw [Bool.eq_false_iff]
    intro hd
    obtain ⟨d, hd1, hd2⟩ := List.any_eq_true.mp hd
    have hdp : d = p ++ ".tmp" := of_decide_eq_true hd2
    rw [hdp] at hd1
    obtain ⟨q, hq, hpre⟩ := hdc _ hd1
    rw [(st.noTmp p hp q hq).2] at hpre
    exact Bool.noConfusion hpre
  have h2 : fs.files.any (fun e => dirPre (p ++ ".tmp") e.1) = false := by
    rw [Bool.eq_false_iff]
    intro hf
    obtain ⟨e, he1, he2⟩ := List.any_eq_true.mp hf
    have : e.1 ∈ allPaths oldT newT := by
      apply hkc
      rw [alLookup_isSome_iff]
      exact List.mem_map.mpr ⟨e, he1, rfl⟩
    rw [(st.noTmp p hp e.1 this).2] at he2
    exact Bool.noConfusion he2
  simp [isDirIn, h1, h2]

theorem tmp_fresh (oldT newT : Tree) (st : SafeTrees oldT newT)
    (fs : FS) (hkc : keysCovered oldT newT fs) (p : RelPath)
    (hp : p ∈ allPaths oldT newT) : (p ++ ".tmp") ∉ alKeys fs.files := by
  intro hmem
  have : (p ++ ".tmp") ∈ allPaths oldT newT :=
    hkc _ ((alLookup_isSome_iff _ _).mpr hmem)
  exact (st.noTmp p hp _ this).1 rfl

/-! ### Evaluation of one application step in the well-behaved cases -/

theorem applyEntry_patch_ok (da : Bytes → Bytes → Option Bytes) (fs : FS)
    (rb : Tree) (name : String) (content : Bytes) (p : RelPath)
    (base nb : Bytes)
    (hrel : recoveredRel name = p)
    (hext : (splitext name).2 = ".patch")
    (hmk : mkdirFails fs.files p = false)
    (hbase : alLookup fs.files p = some base)
    (htmpdir : isDirIn (withParents fs p) (p ++ ".tmp") = false)
    (htmpfresh : (p ++ ".tmp") ∉ alKeys fs.files)
    (hdaeq : da base content = some nb) :
    applyEntry da fs rb name content =
      .ok (⟨alUpsert fs.files p nb, (withParents fs p).dirs⟩,
           alUpsert rb p base) := by
  simp only [applyEntry, hrel, hext, hmk, Bool.false_eq_true, if_false,
    withParents_files, hbase, decide_True, if_true, htmpdir, hdaeq,
    alErase_alUpsert_of_fresh fs.files (p ++ ".tmp") [] htmpfresh]

theorem applyEntry_full_ok (da : Bytes → Bytes → Option Bytes) (fs : FS)
    (rb : Tree) (name : String) (content : Bytes) (p : RelPath)
    (hrel : recoveredRel name = p)
    (hext : (splitext name).2 = ".full")
    (hmk : mkdirFails fs.files p = false)
    (habsent : alLookup fs.files p = none)
    (hdir : isDirIn (withParents fs p) p = false) :
    applyEntry da fs rb name content =
      .ok (⟨alUpsert fs.files p content, (withParents fs p).dirs⟩, rb) := by
  have d1 : (decide ((".full" : String) = ".patch")) = false := by decide
  have d2 : (decide ((".full" : String) = ".full")) = true := by decide
  simp only [applyEntry, hrel, hext, hmk, Bool.false_eq_true, if_false,
    withParents_files, habsent, hdir, d1, d2, if_true]
  simp

theorem applyEntry_delete_present (da : Bytes → Bytes → Option Bytes)
    (fs : FS) (rb : Tree) (name : String) (content : Bytes) (p : RelPath)
    (cur : Bytes)
    (hrel : recoveredRel name = p)
    (hext : (splitext name).2 = ".delete")
    (hmk : mkdirFails fs.files p = false)
    (hcur : alLookup fs.files p = some cur) :
    applyEntry da fs rb name content =
      .ok (⟨alErase fs.files p, (withParents fs p).dirs⟩,
           alUpsert rb p cur) := by
  have d1 : (decide ((".delete" : String) = ".patch")) = false := by decide
  have d2 : (decide ((".delete" : String) = ".full")) = false := by decide
  have d3 : (decide ((".delete" : String) = ".delete")) = true := by decide
  simp only [applyEntry, hrel, hext, hmk, Bool.false_eq_true, if_false,
    withParents_files, hcur, d1, d2, d3, if_true]
  simp

theorem applyEntry_delete_absent (da : Bytes → Bytes → Option Bytes)
    (fs : FS) (rb : Tree) (name : String) (content : Bytes) (p : RelPath)
    (hrel : recoveredRel name = p)
    (hext : (splitext name).2 = ".delete")
    (hmk : mkdirFails fs.files p = false)
    (habsent : alLookup fs.files p = none)
    (hdir : isDirIn (withParents fs p) p = false) :
    applyEntry da fs rb name content = .ok (withParents fs p, rb) := by
  have d1 : (decide ((".delete" : String) = ".patch")) = false := by decide
  have d2 : (decide ((".delete" : String) = ".full")) = false := by decide
  have d3 : (decide ((".delete" : String) = ".delete")) = true := by decide
  simp only [applyEntry, hrel, hext, hmk, Bool.false_eq_true, if_false,
    withParents_files, habsent, hdir, d1, d2, d3, if_true]
  simp

/-! ### Characterisation of the creation loops -/

/-- Pure form of `entryForNew` in the cases where it cannot fail. -/
def newEntry (dc : Bytes → Bytes → Bytes) (oldT : Tree)
    (pc : RelPath × Bytes) : Option (String × Bytes) :=
  match alLookup oldT pc.1 with
  | some co =>
    if decide (co = pc.2) then none
    else some (escapePath pc.1 ++ ".patch", dc co pc.2)
  | none => some (escapePath pc.1 ++ ".full", pc.2)

/-- Deletion marker emitted for one old-tree file. -/
def delEntry (newT : Tree) (pc : RelPath × Bytes) : Option (String × Bytes) :=
  if existsInTree newT pc.1 then none
  else some (escapePath pc.1 ++ ".delete", deleteBytes)

theorem existsInTree_false_of_safe (oldT newT : Tree)
    (st : SafeTrees oldT newT) (t : Tree) (p : RelPath)
    (hsub : ∀ q ∈ alKeys t, q ∈ allPaths oldT newT)
    (hp : p ∈ allPaths oldT newT) (hnone : alLookup t p = none) :
    existsInTree t p = false := by
  have h2 : t.any (fun e => dirPre p e.1) = false := by
    rw [Bool.eq_false_iff]
    intro hf
    obtain ⟨e, he1, he2⟩ := List.any_eq_true.mp hf
    have hmem : e.1 ∈ allPaths oldT newT :=
      hsub e.1 (List.mem_map.mpr ⟨e, he1, rfl⟩)
    rw [st.noConflict p hp e.1 hmem] at he2
    exact Bool.noConfusion he2
  simp [existsInTree, hnone, h2]

theorem entryForNew_safe (dc : Bytes → Bytes → Bytes) (oldT newT : Tree)
    (st : SafeTrees oldT newT) (pc : RelPath × Bytes)
    (hp : pc.1 ∈ allPaths oldT newT) :
    entryForNew dc oldT pc = .ok (newEntry dc oldT pc) := by
  rcases h : alLookup oldT pc.1 with _ | co
  · have hex : existsInTree oldT pc.1 = false :=
      existsInTree_false_of_safe oldT newT st oldT pc.1
        (fun q hq => List.mem_append.mpr (Or.inl hq)) hp h
    simp [entryForNew, newEntry, h, hex]
  · simp only [entryForNew, newEntry, h]
    split <;> rfl

theorem createLoopNew_ok (hashFn : Bytes → Digest)
    (dc : Bytes → Bytes → Bytes) (oldT : Tree) :
    ∀ (pending : List (RelPath × Bytes)) (idx : Nat) (m : Manifest),
      (∀ pc ∈ pending, entryForNew dc oldT pc = .ok (newEntry dc oldT pc)) →
      createLoopNew hashFn dc oldT none pending idx m =
        .ok (pending.filterMap (newEntry dc oldT),
          pending.foldl
            (fun m2 pc => alUpsert m2 pc.1 ⟨hashFn pc.2, pc.2.length⟩) m,
          idx + pending.length) := by
  intro pending
  induction pending with
  | nil => intro idx m _; simp [createLoopNew]
  | cons pc rest ih =>
    intro idx m h
    have hpc := h pc (List.mem_cons_self pc rest)
    have hrest := fun q hq => h q (List.mem_cons_of_mem pc hq)
    rcases he : newEntry dc oldT pc with _ | ent
    · rw [he] at hpc
      simp only [createLoopNew, hpc, he]
      rw [ih (idx + 1) _ hrest]
      simp only [List.filterMap_cons, he, List.foldl_cons]
      have : idx + 1 + rest.length = idx + (rest.length + 1) := by omega
      simp [this]
    · rw [he] at hpc
      simp only [createLoopNew, hpc, he]
      rw [ih (idx + 1) _ hrest]
      simp only [List.filterMap_cons, he, List.foldl_cons]
      have : idx + 1 + rest.length = idx + (rest.length + 1) := by omega
      simp [this]

theorem createLoopOld_ok (newT : Tree) :
    ∀ (pending : List (RelPath × Bytes)) (idx : Nat),
      createLoopOld newT none pending idx =
        .ok (pending.filterMap (delEntry newT)) := by
  intro pending
  induction pending with
  | nil => intro idx; simp [createLoopOld]
  | cons pc rest ih =>
    intro idx
    simp only [createLoopOld, ih (idx + 1), List.filterMap_cons]
    rcases hex : existsInTree newT pc.1 with _ | _ <;>
      simp [delEntry, hex]

/-- Shape of the members of the new-file entry list. -/
theorem mem_filterMap_newEntry (dc : Bytes → Bytes → Bytes) (oldT : Tree)
    (pending : List (RelPath × Bytes)) (e : String × Bytes)
    (h : e ∈ pending.filterMap (newEntry dc oldT)) :
    ∃ pc ∈ pending,
      (e.1 = escapePath pc.1 ++ ".patch" ∨ e.1 = escapePath pc.1 ++ ".full") := by
  obtain ⟨pc, hpc, hne⟩ := List.mem_filterMap.mp h
  refine ⟨pc, hpc, ?_⟩
  rcases hl : alLookup oldT pc.1 with _ | co
  · simp only [newEntry, hl, Option.some.injEq] at hne
    right
    rw [← hne]
  · simp only [newEntry, hl] at hne
    by_cases hc : co = pc.2
    · simp [hc] at hne
    · simp only [hc, decide_False, Bool.false_eq_true, if_false,
        Option.some.injEq] at hne
      left
      rw [← hne]

/-- Shape of the members of the deletion entry list. -/
theorem mem_filterMap_delEntry (newT : Tree)
    (pending : List (RelPath × Bytes)) (e : String × Bytes)
    (h : e ∈ pending.filterMap (delEntry newT)) :
    ∃ pc ∈ pending, existsInTree newT pc.1 = false ∧
      e.1 = escapePath pc.1 ++ ".delete" := by
  obtain ⟨pc, hpc, hne⟩ := List.mem_filterMap.mp h
  refine ⟨pc, hpc, ?_⟩
  unfold delEntry at hne
  rcases hex : existsInTree newT pc.1 with _ | _
  · rw [if_neg (by simp [hex])] at hne
    have he := Option.some.inj hne
    exact ⟨rfl, by rw [← he]⟩
  · rw [if_pos (by simp [hex])] at hne
    exact absurd hne (by simp)

theorem newEntry_name (dc : Bytes → Bytes → Bytes) (oldT : Tree)
    (pc : RelPath × Bytes) (e : String × Bytes)
    (h : newEntry dc oldT pc = some e) :
    e.1 = escapePath pc.1 ++ ".patch" ∨ e.1 = escapePath pc.1 ++ ".full" := by
  have := mem_filterMap_newEntry dc oldT [pc] e
    (by simp [List.filterMap_cons, h])
  obtain ⟨q, hq, hname⟩ := this
  rw [List.mem_singleton] at hq
  subst hq
  exact hname

theorem delEntry_name (newT : Tree) (pc : RelPath × Bytes)
    (e : String × Bytes) (h : delEntry newT pc = some e) :
    e.1 = escapePath pc.1 ++ ".delete" := by
  have := mem_filterMap_delEntry newT [pc] e
    (by simp [List.filterMap_cons, h])
  obtain ⟨q, hq, _, hname⟩ := this
  rw [List.mem_singleton] at hq
  subst hq
  exact hname

theorem mem_alKeys_exists {β : Type} (l : List (String × β)) (k : String)
    (h : k ∈ alKeys l) : ∃ e ∈ l, e.1 = k :=
  List.mem_map.mp h

/-- Under `SafeTrees`, an entry-producing function whose names follow the
escape-plus-kind scheme produces duplicate-free names from duplicate-free
paths. -/
theorem filterMap_names_nodup (oldT newT : Tree) (st : SafeTrees oldT newT)
    (F : RelPath × Bytes → Option (String × Bytes))
    (hF : ∀ pc e, F pc = some e → ∃ x,
      (x = ".patch" ∨ x = ".full" ∨ x = ".delete") ∧
        e.1 = escapePath pc.1 ++ x) :
    ∀ pending : List (RelPath × Bytes),
      (∀ pc ∈ pending, pc.1 ∈ allPaths oldT newT) →
      (alKeys pending).Nodup →
      (alKeys (pending.filterMap F)).Nodup := by
  intro pending
  induction pending with
  | nil => intro _ _; simp [alKeys]
  | cons pc rest ih =>
    intro hsub hnd
    simp only [alKeys_cons, List.nodup_cons] at hnd
    have ihr := ih (fun q hq => hsub q (List.mem_cons_of_mem pc hq)) hnd.2
    rcases hFpc : F pc with _ | e
    · simpa [List.filterMap_cons, hFpc] using ihr
    · simp only [List.filterMap_cons, hFpc, alKeys_cons, List.nodup_cons]
      refine ⟨?_, ihr⟩
      intro hmem
      obtain ⟨e', he'mem, he'name⟩ := mem_alKeys_exists _ _ hmem
      obtain ⟨q, hqmem, hFq⟩ := List.mem_filterMap.mp he'mem
      obtain ⟨x, hx, hxname⟩ := hF pc e hFpc
      obtain ⟨y, hy, hyname⟩ := hF q e' hFq
      have heq : escapePath q.1 ++ y = escapePath pc.1 ++ x := by
        rw [← hxname, ← hyname, he'name]
      have hinj := append_kind_inj (escapePath q.1) (escapePath pc.1) y x
        hy hx heq
      have hqp : pc.1 ∈ allPaths oldT newT := hsub pc (List.mem_cons_self pc rest)
      have hqq : q.1 ∈ allPaths oldT newT :=
        hsub q (List.mem_cons_of_mem pc hqmem)
      have hpaths : q.1 = pc.1 := by
        have := congrArg unescapeName hinj.1
        rw [st.roundName q.1 hqq, st.roundName pc.1 hqp] at this
        exact this
      exact hnd.1 (hpaths ▸ List.mem_map.mpr ⟨q, hqmem, rfl⟩)

/-- Names of new-file entries and deletion entries never collide: their kind
suffixes differ. -/
theorem created_names_disjoint (dc : Bytes → Bytes → Bytes)
    (oldT newT : Tree) (pendA pendB : List (RelPath × Bytes)) :
    List.Disjoint (alKeys (pendA.filterMap (newEntry dc oldT)))
      (alKeys (pendB.filterMap (delEntry newT))) := by
  intro name hA hB
  obtain ⟨e, heA, hename⟩ := mem_alKeys_exists _ _ hA
  obtain ⟨e', heB, he'name⟩ := mem_alKeys_exists _ _ hB
  obtain ⟨pc, _, hpcname⟩ := mem_filterMap_newEntry dc oldT pendA e heA
  obtain ⟨qc, _, _, hqcname⟩ := mem_filterMap_delEntry newT pendB e' heB
  have heq : escapePath pc.1 ++ ".patch" = escapePath qc.1 ++ ".delete" ∨
      escapePath pc.1 ++ ".full" = escapePath qc.1 ++ ".delete" := by
    rcases hpcname with hh | hh
    · left
      rw [← hh, hename, ← he'name, hqcname]
    · right
      rw [← hh, hename, ← he'name, hqcname]
  rcases heq with hh | hh
  · have := (append_kind_inj _ _ _ _ (Or.inl rfl) (Or.inr (Or.inr rfl)) hh).2
    exact absurd this (by decide)
  · have := (append_kind_inj _ _ _ _ (Or.inr (Or.inl rfl))
      (Or.inr (Or.inr rfl)) hh).2
    exact absurd this (by decide)

/-! ### Preservation of the run invariants -/

theorem dirsCovered_mkdir (oldT newT : Tree) (fs : FS) (p : RelPath)
    (files' : Tree) (hdc : dirsCovered oldT newT fs)
    (hp : p ∈ allPaths oldT newT) :
    dirsCovered oldT newT ⟨files', (withParents fs p).dirs⟩ := by
  intro d hd
  rcases withParents_dirs_mem fs p d hd with h1 | h1
  · exact hdc d h1
  · exact ⟨p, hp, ancestorsOf_dirPre d p h1⟩

theorem keysCovered_upsert (oldT newT : Tree) (fs : FS)
    (hkc : keysCovered oldT newT fs) (p : RelPath)
    (hp : p ∈ allPaths oldT newT) (v : Bytes) (ds : List RelPath) :
    keysCovered oldT newT ⟨alUpsert fs.files p v, ds⟩ := by
  intro q hq
  simp only at hq
  rw [alLookup_upsert] at hq
  by_cases hpq : p = q
  · exact hpq ▸ hp
  · rw [if_neg hpq] at hq
    exact hkc q hq

theorem keysCovered_erase (oldT newT : Tree) (fs : FS)
    (hkc : keysCovered oldT newT fs) (p : RelPath) (ds : List RelPath) :
    keysCovered oldT newT ⟨alErase fs.files p, ds⟩ := by
  intro q hq
  simp only at hq
  rw [alLookup_erase] at hq
  by_cases hpq : p = q
  · rw [if_pos hpq] at hq
    exact absurd hq (by simp)
  · rw [if_neg hpq] at hq
    exact hkc q hq

theorem keysCovered_dirs (oldT newT : Tree) (fs : FS)
    (hkc : keysCovered oldT newT fs) (ds : List RelPath) :
    keysCovered oldT newT ⟨fs.files, ds⟩ :=
  fun q hq => hkc q hq

/-! ### Applying the entries of a created package -/

theorem applyEntries_append (da : Bytes → Bytes → Option Bytes)
    (a : List (String × Bytes)) :
    ∀ (b : List (String × Bytes)) (fs : FS) (rb : Tree) (fs1 : FS)
      (rb1 : Tree), applyEntries da a fs rb = .ok (fs1, rb1) →
      applyEntries da (a ++ b) fs rb = applyEntries da b fs1 rb1 := by
  induction a with
  | nil =>
    intro b fs rb fs1 rb1 h
    simp only [applyEntries] at h
    obtain ⟨h1, h2⟩ := Prod.mk.inj (Except.ok.inj h)
    rw [List.nil_append, h1, h2]
  | cons e t ih =>
    intro b fs rb fs1 rb1 h
    simp only [applyEntries] at h ⊢
    rcases hstep : applyEntry da fs rb e.1 e.2 with x | ⟨fs2, rb2⟩
    · rw [hstep] at h
      exact absurd h (by simp)
    · rw [hstep] at h
      exact ih b fs2 rb2 fs1 rb1 h

/-- Applying the new-file entries of a created package writes every new-tree
file to its new content, touches no other path, and keeps the coverage
invariants. -/
theorem applyNewPhase (dc : Bytes → Bytes → Bytes)
    (da : Bytes → Bytes → Option Bytes) (oldT newT : Tree)
    (st : SafeTrees oldT newT) (hda : ∀ o n, da o (dc o n) = some n) :
    ∀ (pending : List (RelPath × Bytes)) (fs : FS) (rb : Tree),
      (∀ pc ∈ pending, pc ∈ newT) →
      (alKeys pending).Nodup →
      (∀ pc ∈ pending, alLookup fs.files pc.1 = alLookup oldT pc.1) →
      keysCovered oldT newT fs →
      dirsCovered oldT newT fs →
      ∃ fs' rb',
        applyEntries da (pending.filterMap (newEntry dc oldT)) fs rb =
          .ok (fs', rb') ∧
        (∀ pc ∈ pending, alLookup fs'.files pc.1 = some pc.2) ∧
        (∀ p, p ∉ alKeys pending →
          alLookup fs'.files p = alLookup fs.files p) ∧
        keysCovered oldT newT fs' ∧
        dirsCovered oldT newT fs' := by
  intro pending
  induction pending with
  | nil =>
    intro fs rb _ _ _ hkc hdc
    refine ⟨fs, rb, by simp [applyEntries], by simp, fun p _ => rfl, hkc, hdc⟩
  | cons pc rest ih =>
    intro fs rb hsub hnd hagree hkc hdc
    have hpcnew : pc ∈ newT := hsub pc (List.mem_cons_self pc rest)
    have hpall : pc.1 ∈ allPaths oldT newT :=
      List.mem_append.mpr (Or.inr (List.mem_map.mpr ⟨pc, hpcnew, rfl⟩))
    have hval : alLookup fs.files pc.1 = alLookup oldT pc.1 :=
      hagree pc (List.mem_cons_self pc rest)
    simp only [alKeys_cons, List.nodup_cons] at hnd
    have hsubr : ∀ qc ∈ rest, qc ∈ newT :=
      fun qc hq => hsub qc (List.mem_cons_of_mem pc hq)
    have hrn := st.roundName pc.1 hpall
    have hndot := st.nonDot pc.1 hpall
    rcases hl : alLookup oldT pc.1 with _ | co
    · -- the path is new: a `.full` entry is emitted and applied
      have hent : newEntry dc oldT pc =
          some (escapePath pc.1 ++ ".full", pc.2) := by
        simp [newEntry, hl]
      have habsent : alLookup fs.files pc.1 = none := by rw [hval, hl]
      have hrk := recoveredRel_kind pc.1 (".full") (Or.inr (Or.inl rfl))
        hrn hndot
      have hdirw : dirsCovered oldT newT (withParents fs pc.1) :=
        dirsCovered_mkdir oldT newT fs pc.1 fs.files hdc hpall
      have hkcw : keysCovered oldT newT (withParents fs pc.1) := hkc
      have hstep := applyEntry_full_ok da fs rb
        (escapePath pc.1 ++ ".full") pc.2 pc.1 hrk.1 hrk.2
        (mkdirFails_false oldT newT st fs hkc pc.1 hpall) habsent
        (isDirIn_false oldT newT st (withParents fs pc.1) hkcw hdirw pc.1
          hpall)
      have hkc1 : keysCovered oldT newT
          ⟨alUpsert fs.files pc.1 pc.2, (withParents fs pc.1).dirs⟩ :=
        keysCovered_upsert oldT newT fs hkc pc.1 hpall pc.2 _
      have hdc1 : dirsCovered oldT newT
          ⟨alUpsert fs.files pc.1 pc.2, (withParents fs pc.1).dirs⟩ :=
        dirsCovered_mkdir oldT newT fs pc.1 _ hdc hpall
      have hagree1 : ∀ qc ∈ rest,
          alLookup (alUpsert fs.files pc.1 pc.2) qc.1 =
            alLookup oldT qc.1 := by
        intro qc hq
        have hne : ¬ pc.1 = qc.1 := fun hc =>
          hnd.1 (hc ▸ List.mem_map.mpr ⟨qc, hq, rfl⟩)
        rw [alLookup_upsert, if_neg hne]
        exact hagree qc (List.mem_cons_of_mem pc hq)
      obtain ⟨fs', rb', hrun, hP1, hP2, hkc', hdc'⟩ :=
        ih ⟨alUpsert fs.files pc.1 pc.2, (withParents fs pc.1).dirs⟩ rb
          hsubr hnd.2 hagree1 hkc1 hdc1
      refine ⟨fs', rb', ?_, ?_, ?_, hkc', hdc'⟩
      · simp only [List.filterMap_cons, hent, applyEntries, hstep]
        exact hrun
      · intro qc hq
        rcases List.mem_cons.mp hq with hq1 | hq1
        · subst hq1
          rw [hP2 qc.1 hnd.1]
          simp [alLookup_upsert]
        · exact hP1 qc hq1
      · intro p hp
        have hp1 : ¬ pc.1 = p := fun hc => hp (by simp [alKeys_cons, ← hc])
        have hp2 : p ∉ alKeys rest := fun hc => hp (by
          simp only [alKeys_cons, List.mem_cons]
          exact Or.inr hc)
        rw [hP2 p hp2]
        simp [alLookup_upsert, hp1]
    · by_cases hco : co = pc.2
      · -- unchanged file: no entry is emitted
        subst hco
        have hent : newEntry dc oldT pc = none := by simp [newEntry, hl]
        obtain ⟨fs', rb', hrun, hP1, hP2, hkc', hdc'⟩ :=
          ih fs rb hsubr hnd.2
            (fun qc hq => hagree qc (List.mem_cons_of_mem pc hq)) hkc hdc
        refine ⟨fs', rb', ?_, ?_, ?_, hkc', hdc'⟩
        · simpa [List.filterMap_cons, hent] using hrun
        · intro qc hq
          rcases List.mem_cons.mp hq with hq1 | hq1
          · subst hq1
            rw [hP2 qc.1 hnd.1, hval, hl]
          · exact hP1 qc hq1
        · intro p hp
          exact hP2 p (fun hc => hp (by
            simp only [alKeys_cons, List.mem_cons]
            exact Or.inr hc))
      · -- modified file: a `.patch` entry is emitted and applied
        have hent : newEntry dc oldT pc =
            some (escapePath pc.1 ++ ".patch", dc co pc.2) := by
          simp [newEntry, hl, hco]
        have hbase : alLookup fs.files pc.1 = some co := by rw [hval, hl]
        have hrk := recoveredRel_kind pc.1 (".patch") (Or.inl rfl) hrn hndot
        have hdirw : dirsCovered oldT newT (withParents fs pc.1) :=
          dirsCovered_mkdir oldT newT fs pc.1 fs.files hdc hpall
        have hkcw : keysCovered oldT newT (withParents fs pc.1) := hkc
        have hstep := applyEntry_patch_ok da fs rb
          (escapePath pc.1 ++ ".patch") (dc co pc.2) pc.1 co pc.2
          hrk.1 hrk.2
          (mkdirFails_false oldT newT st fs hkc pc.1 hpall) hbase
          (isDirIn_tmp_false oldT newT st (withParents fs pc.1) hkcw hdirw
            pc.1 hpall)
          (tmp_fresh oldT newT st fs hkc pc.1 hpall)
          (hda co pc.2)
        have hkc1 : keysCovered oldT newT
            ⟨alUpsert fs.files pc.1 pc.2, (withParents fs pc.1).dirs⟩ :=
          keysCovered_upsert oldT newT fs hkc pc.1 hpall pc.2 _
        have hdc1 : dirsCovered oldT newT
            ⟨alUpsert fs.files pc.1 pc.2, (withParents fs pc.1).dirs⟩ :=
          dirsCovered_mkdir oldT newT fs pc.1 _ hdc hpall
        have hagree1 : ∀ qc ∈ rest,
            alLookup (alUpsert fs.files pc.1 pc.2) qc.1 =
              alLookup oldT qc.1 := by
          intro qc hq
          have hne : ¬ pc.1 = qc.1 := fun hc =>
            hnd.1 (hc ▸ List.mem_map.mpr ⟨qc, hq, rfl⟩)
          rw [alLookup_upsert, if_neg hne]
          exact hagree qc (List.mem_cons_of_mem pc hq)
        obtain ⟨fs', rb', hrun, hP1, hP2, hkc', hdc'⟩ :=
          ih ⟨alUpsert fs.files pc.1 pc.2, (withParents fs pc.1).dirs⟩
            (alUpsert rb pc.1 co) hsubr hnd.2 hagree1 hkc1 hdc1
        refine ⟨fs', rb', ?_, ?_, ?_, hkc', hdc'⟩
        · simp only [List.filterMap_cons, hent, applyEntries, hstep]
          exact hrun
        · intro qc hq
          rcases List.mem_cons.mp hq with hq1 | hq1
          · subst hq1
            rw [hP2 qc.1 hnd.1]
            simp [alLookup_upsert]
          · exact hP1 qc hq1
        · intro p hp
          have hp1 : ¬ pc.1 = p := fun hc => hp (by simp [alKeys_cons, ← hc])
          have hp2 : p ∉ alKeys rest := fun hc => hp (by
            simp only [alKeys_cons, List.mem_cons]
            exact Or.inr hc)
          rw [hP2 p hp2]
          simp [alLookup_upsert, hp1]

theorem existsInTree_true_of_lookup (t : Tree) (p : RelPath) (c : Bytes)
    (h : alLookup t p = some c) : existsInTree t p = true := by
  simp [existsInTree, h]

theorem not_mem_keys_of_existsInTree_false (t : Tree) (p : RelPath)
    (h : existsInTree t p = false) : p ∉ alKeys t := by
  intro hm
  have hs := (alLookup_isSome_iff t p).mpr hm
  simp [existsInTree, hs] at h

/-- Applying the deletion entries of a created package removes every old
path absent from the new tree and touches nothing else. -/
theorem applyDelPhase (da : Bytes → Bytes → Option Bytes)
    (oldT newT : Tree) (st : SafeTrees oldT newT) :
    ∀ (pending : List (RelPath × Bytes)) (fs : FS) (rb : Tree),
      (∀ pc ∈ pending, pc ∈ oldT) →
      (alKeys pending).Nodup →
      (∀ pc ∈ pending, existsInTree newT pc.1 = false →
        alLookup fs.files pc.1 = some pc.2) →
      keysCovered oldT newT fs →
      dirsCovered oldT newT fs →
      ∃ fs' rb',
        applyEntries da (pending.filterMap (delEntry newT)) fs rb =
          .ok (fs', rb') ∧
        (∀ pc ∈ pending, existsInTree newT pc.1 = false →
          alLookup fs'.files pc.1 = none) ∧
        (∀ p, (p ∉ alKeys pending ∨ existsInTree newT p = true) →
          alLookup fs'.files p = alLookup fs.files p) ∧
        keysCovered oldT newT fs' ∧
        dirsCovered oldT newT fs' := by
  intro pending
  induction pending with
  | nil =>
    intro fs rb _ _ _ hkc hdc
    exact ⟨fs, rb, by simp [applyEntries], by simp, fun p _ => rfl, hkc, hdc⟩
  | cons pc rest ih =>
    intro fs rb hsub hnd hagree hkc hdc
    have hpcold : pc ∈ oldT := hsub pc (List.mem_cons_self pc rest)
    have hpall : pc.1 ∈ allPaths oldT newT :=
      List.mem_append.mpr (Or.inl (List.mem_map.mpr ⟨pc, hpcold, rfl⟩))
    simp only [alKeys_cons, List.nodup_cons] at hnd
    have hsubr : ∀ qc ∈ rest, qc ∈ oldT :=
      fun qc hq => hsub qc (List.mem_cons_of_mem pc hq)
    rcases hex : existsInTree newT pc.1 with _ | _
    · -- deleted path: a `.delete` entry is emitted and applied
      have hent : delEntry newT pc =
          some (escapePath pc.1 ++ ".delete", deleteBytes) := by
        simp [delEntry, hex]
      have hcur : alLookup fs.files pc.1 = some pc.2 :=
        hagree pc (List.mem_cons_self pc rest) hex
      have hrk := recoveredRel_kind pc.1 (".delete") (Or.inr (Or.inr rfl))
        (st.roundName pc.1 hpall) (st.nonDot pc.1 hpall)
      have hstep := applyEntry_delete_present da fs rb
        (escapePath pc.1 ++ ".delete") deleteBytes pc.1 pc.2
        hrk.1 hrk.2
        (mkdirFails_false oldT newT st fs hkc pc.1 hpall) hcur
      have hkc1 : keysCovered oldT newT
          ⟨alErase fs.files pc.1, (withParents fs pc.1).dirs⟩ :=
        keysCovered_erase oldT newT fs hkc pc.1 _
      have hdc1 : dirsCovered oldT newT
          ⟨alErase fs.files pc.1, (withParents fs pc.1).dirs⟩ :=
        dirsCovered_mkdir oldT newT fs pc.1 _ hdc hpall
      have hagree1 : ∀ qc ∈ rest, existsInTree newT qc.1 = false →
          alLookup (alErase fs.files pc.1) qc.1 = some qc.2 := by
        intro qc hq hqex
        have hne : ¬ pc.1 = qc.1 := fun hc =>
          hnd.1 (hc ▸ List.mem_map.mpr ⟨qc, hq, rfl⟩)
        rw [alLookup_erase, if_neg hne]
        exact hagree qc (List.mem_cons_of_mem pc hq) hqex
      obtain ⟨fs', rb', hrun, hQ1, hQ2, hkc', hdc'⟩ :=
        ih ⟨alErase fs.files pc.1, (withParents fs pc.1).dirs⟩
          (alUpsert rb pc.1 pc.2) hsubr hnd.2 hagree1 hkc1 hdc1
      refine ⟨fs', rb', ?_, ?_, ?_, hkc', hdc'⟩
      · simp only [List.filterMap_cons, hent, applyEntries, hstep]
        exact hrun
      · intro qc hq hqex
        rcases List.mem_cons.mp hq with hq1 | hq1
        · subst hq1
          rw [hQ2 qc.1 (Or.inl hnd.1)]
          simp [alLookup_erase]
        · exact hQ1 qc hq1 hqex
      · intro p hp
        have hpne : ¬ pc.1 = p := by
          intro hc
          subst hc
          rcases hp with hp | hp
          · exact hp (by simp [alKeys_cons])
          · rw [hex] at hp
            exact Bool.noConfusion hp
        have hp2 : p ∉ alKeys rest ∨ existsInTree newT p = true := by
          rcases hp with hp | hp
          · exact Or.inl (fun hc => hp (by
              simp only [alKeys_cons, List.mem_cons]
              exact Or.inr hc))
          · exact Or.inr hp
        rw [hQ2 p hp2]
        simp [alLookup_erase, hpne]
    · -- path still exists in the new tree: no deletion entry
      have hent : delEntry newT pc = none := by simp [delEntry, hex]
      obtain ⟨fs', rb', hrun, hQ1, hQ2, hkc', hdc'⟩ :=
        ih fs rb hsubr hnd.2
          (fun qc hq hqex => hagree qc (List.mem_cons_of_mem pc hq) hqex)
          hkc hdc
      refine ⟨fs', rb', ?_, ?_, ?_, hkc', hdc'⟩
      · simpa [List.filterMap_cons, hent] using hrun
      · intro qc hq hqex
        rcases List.mem_cons.mp hq with hq1 | hq1
        · subst hq1
          rw [hex] at hqex
          exact Bool.noConfusion hqex
        · exact hQ1 qc hq1 hqex
      · intro p hp
        apply hQ2 p
        rcases hp with hp | hp
        · exact Or.inl (fun hc => hp (by
            simp only [alKeys_cons, List.mem_cons]
            exact Or.inr hc))
        · exact Or.inr hp

/-- Validation succeeds when every manifest record matches the target
state. -/
theorem validateManifest_ok (hashFn : Bytes → Digest) :
    ∀ (m : Manifest) (fs : FS),
      (∀ pi ∈ m, ∃ c, alLookup fs.files pi.1 = some c ∧
        pi.2.sha256 = hashFn c) →
      validateManifest hashFn m fs = .ok [] := by
  intro m
  induction m with
  | nil => intro fs _; rfl
  | cons pi rest ih =>
    intro fs h
    obtain ⟨c, hc, hsha⟩ := h pi (List.mem_cons_self pi rest)
    obtain ⟨p, info⟩ := pi
    simp only at hc hsha
    simp only [validateManifest, hc,
      ih fs (fun qi hq => h qi (List.mem_cons_of_mem _ hq)), hsha]
    simp

/-- The manifest accumulated by the creation loop, for duplicate-free new
trees, is exactly one record per new file in tree order. -/
theorem manifestFold_eq_map (hashFn : Bytes → Digest) (newT : Tree)
    (hn : (alKeys newT).Nodup) :
    newT.foldl
      (fun m2 pc => alUpsert m2 pc.1 ⟨hashFn pc.2, pc.2.length⟩)
      ([] : Manifest) =
      newT.map (fun pc => (pc.1, (⟨hashFn pc.2, pc.2.length⟩ : FileInfo))) := by
  have h1 : newT.foldl
      (fun m2 pc => alUpsert m2 pc.1 ⟨hashFn pc.2, pc.2.length⟩)
      ([] : Manifest) =
      (newT.map (fun pc =>
        (pc.1, (⟨hashFn pc.2, pc.2.length⟩ : FileInfo)))).foldl
        (fun m2 e => alUpsert m2 e.1 e.2) ([] : Manifest) := by
    rw [List.foldl_map]
  rw [h1, foldl_alUpsert_of_nodup]
  · rw [List.nil_append]
  · have : alKeys (newT.map (fun pc =>
        (pc.1, (⟨hashFn pc.2, pc.2.length⟩ : FileInfo)))) = alKeys newT := by
      simp [alKeys, List.map_map]
    simpa [alKeys_nil, this] using hn

/-- Successful creation under `SafeTrees`: the package holds the new-file
entries followed by the deletion entries (no scratch-name collisions) and
one manifest record per new-tree file. -/
theorem create_patch_safe (hashFn : Bytes → Digest)
    (dc : Bytes → Bytes → Bytes) (oldT newT : Tree)
    (st : SafeTrees oldT newT) :
    create_patch hashFn dc oldT newT none false =
      ⟨.ok ⟨newT.filterMap (newEntry dc oldT) ++
              oldT.filterMap (delEntry newT),
            newT.map (fun pc =>
              (pc.1, (⟨hashFn pc.2, pc.2.length⟩ : FileInfo)))⟩,
       .complete ⟨newT.filterMap (newEntry dc oldT) ++
              oldT.filterMap (delEntry newT),
            newT.map (fun pc =>
              (pc.1, (⟨hashFn pc.2, pc.2.length⟩ : FileInfo)))⟩⟩ := by
  have hloop1 := createLoopNew_ok hashFn dc oldT newT 0 []
    (fun pc hpc => entryForNew_safe dc oldT newT st pc
      (List.mem_append.mpr (Or.inr (List.mem_map.mpr ⟨pc, hpc, rfl⟩))))
  have hloop2 := createLoopOld_ok newT oldT (0 + newT.length)
  have hFnew : ∀ pc e, newEntry dc oldT pc = some e → ∃ x,
      (x = ".patch" ∨ x = ".full" ∨ x = ".delete") ∧
        e.1 = escapePath pc.1 ++ x := by
    intro pc e he
    rcases newEntry_name dc oldT pc e he with hh | hh
    · exact ⟨".patch", Or.inl rfl, hh⟩
    · exact ⟨".full", Or.inr (Or.inl rfl), hh⟩
  have hFdel : ∀ pc e, delEntry newT pc = some e → ∃ x,
      (x = ".patch" ∨ x = ".full" ∨ x = ".delete") ∧
        e.1 = escapePath pc.1 ++ x := by
    intro pc e he
    exact ⟨".delete", Or.inr (Or.inr rfl), delEntry_name newT pc e he⟩
  have hndA : (alKeys (newT.filterMap (newEntry dc oldT))).Nodup :=
    filterMap_names_nodup oldT newT st (newEntry dc oldT) hFnew newT
      (fun pc hpc =>
        List.mem_append.mpr (Or.inr (List.mem_map.mpr ⟨pc, hpc, rfl⟩)))
      st.nodupNew
  have hndB : (alKeys (oldT.filterMap (delEntry newT))).Nodup :=
    filterMap_names_nodup oldT newT st (delEntry newT) hFdel oldT
      (fun pc hpc =>
        List.mem_append.mpr (Or.inl (List.mem_map.mpr ⟨pc, hpc, rfl⟩)))
      st.nodupOld
  have hndAB : (alKeys (newT.filterMap (newEntry dc oldT) ++
      oldT.filterMap (delEntry newT))).Nodup := by
    have hk : alKeys (newT.filterMap (newEntry dc oldT) ++
        oldT.filterMap (delEntry newT)) =
        alKeys (newT.filterMap (newEntry dc oldT)) ++
          alKeys (oldT.filterMap (delEntry newT)) := by
      simp [alKeys]
    rw [hk, List.nodup_append]
    exact ⟨hndA, hndB, created_names_disjoint dc oldT newT newT oldT⟩
  have hfold := foldl_alUpsert_of_nodup
    (newT.filterMap (newEntry dc oldT) ++ oldT.filterMap (delEntry newT))
    [] (by simpa [alKeys_nil] using hndAB)
  simp only [create_patch, hloop1, hloop2,
    manifestFold_eq_map hashFn newT st.nodupNew, hfold, List.nil_append,
    Bool.false_eq_true, if_false]

/-- Core of the amended round-trip property: under `SafeTrees`, creation
succeeds and application to a copy of the old tree succeeds and reproduces
the new tree. -/
theorem roundtrip_core (hashFn : Bytes → Digest)
    (dc : Bytes → Bytes → Bytes) (da : Bytes → Bytes → Option Bytes)
    (oldT newT : Tree) (hda : ∀ o n, da o (dc o n) = some n)
    (st : SafeTrees oldT newT) :
    ∃ pkg : Package,
      (create_patch hashFn dc oldT newT none false).outcome = .ok pkg ∧
      (create_patch hashFn dc oldT newT none false).dest = .complete pkg ∧
      (apply_patch hashFn da pkg ⟨oldT, []⟩).outcome = .ok () ∧
      ∀ p, alLookup (apply_patch hashFn da pkg ⟨oldT, []⟩).fs.files p =
        alLookup newT p := by
  have hcreate := create_patch_safe hashFn dc oldT newT st
  set entsA := newT.filterMap (newEntry dc oldT) with hentsA
  set entsB := oldT.filterMap (delEntry newT) with hentsB
  set mf := newT.map (fun pc =>
    (pc.1, (⟨hashFn pc.2, pc.2.length⟩ : FileInfo))) with hmf
  refine ⟨⟨entsA ++ entsB, mf⟩, by rw [hcreate], by rw [hcreate], ?_⟩
  obtain ⟨fs1, rb1, hrunNew, hP1, hP2, hkc1, hdc1⟩ :=
    applyNewPhase dc da oldT newT st hda newT ⟨oldT, []⟩ []
      (fun pc h => h) st.nodupNew (fun pc _ => rfl)
      (fun q hq =>
        List.mem_append.mpr (Or.inl (mem_alKeys_of_lookup oldT q hq)))
      (fun d hd => absurd hd (List.not_mem_nil d))
  obtain ⟨fs2, rb2, hrunDel, hQ1, hQ2, hkc2, hdc2⟩ :=
    applyDelPhase da oldT newT st oldT fs1 rb1
      (fun pc h => h) st.nodupOld
      (fun pc hpc hex => by
        rw [hP2 pc.1 (not_mem_keys_of_existsInTree_false newT pc.1 hex)]
        exact alLookup_of_mem_nodup oldT pc.1 pc.2 st.nodupOld hpc)
      hkc1 hdc1
  have hfinal : ∀ p, alLookup fs2.files p = alLookup newT p := by
    intro p
    rcases hn : alLookup newT p with _ | c
    · rcases ho : alLookup oldT p with _ | c0
      · rw [hQ2 p (Or.inl ((alLookup_eq_none_iff oldT p).mp ho)),
          hP2 p ((alLookup_eq_none_iff newT p).mp hn)]
        exact ho
      · have hmem : (p, c0) ∈ oldT := alLookup_some_mem oldT p c0 ho
        have hpall : p ∈ allPaths oldT newT :=
          List.mem_append.mpr (Or.inl (List.mem_map.mpr ⟨(p, c0), hmem, rfl⟩))
        have hex : existsInTree newT p = false :=
          existsInTree_false_of_safe oldT newT st newT p
            (fun q hq => List.mem_append.mpr (Or.inr hq)) hpall hn
        exact hQ1 (p, c0) hmem hex
    · have hmem : (p, c) ∈ newT := alLookup_some_mem newT p c hn
      rw [hQ2 p (Or.inr (existsInTree_true_of_lookup newT p c hn))]
      exact hP1 (p, c) hmem
  have hcomb : applyEntries da (entsA ++ entsB) ⟨oldT, []⟩ [] =
      .ok (fs2, rb2) :=
    (applyEntries_append da entsA entsB ⟨oldT, []⟩ [] fs1 rb1 hrunNew).trans
      hrunDel
  have hvalid : validateManifest hashFn mf fs2 = .ok [] := by
    apply validateManifest_ok
    intro pi hpi
    obtain ⟨pc, hpc, hpi2⟩ := List.mem_map.mp hpi
    refine ⟨pc.2, ?_, ?_⟩
    · rw [← hpi2]
      simp only
      rw [hfinal pc.1]
      exact alLookup_of_mem_nodup newT pc.1 pc.2 st.nodupNew hpc
    · rw [← hpi2]
  have happly : apply_patch hashFn da ⟨entsA ++ entsB, mf⟩ ⟨oldT, []⟩ =
      ⟨.ok (), fs2, rb2, fs2⟩ := by
    rw [apply_patch]
    simp only [hcomb, hvalid]
  rw [happly]
  exact ⟨rfl, hfinal⟩

/-! ### Snapshot evolution during one application run -/

/-- How one loop iteration can change the rollback directory: it either
leaves it alone or snapshots the current content of its own target path. -/
def rbEvolved (fs : FS) (rb rb' : Tree) (rel : RelPath) : Prop :=
  rb' = rb ∨
    ∃ cur, alLookup fs.files rel = some cur ∧ rb' = alUpsert rb rel cur

/-- The rollback directory an application step leaves behind, whether the
step succeeded or raised. -/
def rbOf (res : Except (ApplyErr × FS × Tree) (FS × Tree)) : Tree :=
  match res with
  | .ok (_, rb') => rb'
  | .error (_, _, rbE) => rbE

/-- Master case analysis of one application step: the resulting rollback
directory evolves by at most a snapshot of the step's own target, and a
successful step changes no file outside its target and its `.tmp` scratch
path. -/
theorem applyEntry_master (da : Bytes → Bytes → Option Bytes) (fs : FS)
    (rb : Tree) (name : String) (content : Bytes) :
    ∃ rb1, rbEvolved fs rb rb1 (recoveredRel name) ∧
      ((∃ fs', applyEntry da fs rb name content = .ok (fs', rb1) ∧
        ∀ p, ¬ p = recoveredRel name → ¬ p = recoveredRel name ++ ".tmp" →
          alLookup fs'.files p = alLookup fs.files p) ∨
       (∃ e fsE, applyEntry da fs rb name content = .error (e, fsE, rb1))) := by
  by_cases hmk : mkdirFails fs.files (recoveredRel name) = true
  · refine ⟨rb, Or.inl rfl, Or.inr ⟨.ioError (recoveredRel name), fs, ?_⟩⟩
    simp only [applyEntry, hmk, if_true]
  · have hmkf : mkdirFails fs.files (recoveredRel name) = false :=
      Bool.eq_false_iff.mpr hmk
    rcases hsnap : alLookup fs.files (recoveredRel name) with _ | cur
    · -- target absent before the step: no snapshot is taken
      by_cases hdir : isDirIn (withParents fs (recoveredRel name))
          (recoveredRel name) = true
      · refine ⟨rb, Or.inl rfl,
          Or.inr ⟨.ioError (recoveredRel name),
            withParents fs (recoveredRel name), ?_⟩⟩
        simp only [applyEntry, hmkf, Bool.false_eq_true, if_false,
          withParents_files, hsnap, hdir, if_true]
      · have hdirf : isDirIn (withParents fs (recoveredRel name))
            (recoveredRel name) = false := Bool.eq_false_iff.mpr hdir
        by_cases he1 : (splitext name).2 = ".patch"
        · have d1 := decide_eq_true he1
          refine ⟨rb, Or.inl rfl,
            Or.inr ⟨.missingBase (recoveredRel name),
              withParents fs (recoveredRel name), ?_⟩⟩
          simp only [applyEntry, hmkf, Bool.false_eq_true, if_false,
            withParents_files, hsnap, hdirf, d1, if_true]
        · have d1 := decide_eq_false he1
          by_cases he2 : (splitext name).2 = ".full"
          · have d2 := decide_eq_true he2
            refine ⟨rb, Or.inl rfl,
              Or.inl ⟨⟨alUpsert fs.files (recoveredRel name) content,
                (withParents fs (recoveredRel name)).dirs⟩, ?_, ?_⟩⟩
            · simp only [applyEntry, hmkf, Bool.false_eq_true, if_false,
                withParents_files, hsnap, hdirf, d1, d2, if_true]
            · intro p hp1 _
              simp only
              rw [alLookup_upsert, if_neg (fun hc => hp1 hc.symm)]
          · have d2 := decide_eq_false he2
            by_cases he3 : (splitext name).2 = ".delete"
            · have d3 := decide_eq_true he3
              refine ⟨rb, Or.inl rfl,
                Or.inl ⟨withParents fs (recoveredRel name), ?_,
                  fun p _ _ => rfl⟩⟩
              simp only [applyEntry, hmkf, Bool.false_eq_true, if_false,
                withParents_files, hsnap, hdirf, d1, d2, d3, if_true]
            · have d3 := decide_eq_false he3
              refine ⟨rb, Or.inl rfl,
                Or.inl ⟨withParents fs (recoveredRel name), ?_,
                  fun p _ _ => rfl⟩⟩
              simp only [applyEntry, hmkf, Bool.false_eq_true, if_false,
                withParents_files, hsnap, hdirf, d1, d2, d3]
    · -- target present: it is snapshotted first
      refine ⟨alUpsert rb (recoveredRel name) cur,
        Or.inr ⟨cur, hsnap, rfl⟩, ?_⟩
      by_cases he1 : (splitext name).2 = ".patch"
      · have d1 := decide_eq_true he1
        by_cases htd : isDirIn (withParents fs (recoveredRel name))
            (recoveredRel name ++ ".tmp") = true
        · refine Or.inr ⟨.ioError (recoveredRel name ++ ".tmp"),
            withParents fs (recoveredRel name), ?_⟩
          simp only [applyEntry, hmkf, Bool.false_eq_true, if_false,
            withParents_files, hsnap, d1, htd, if_true]
        · have htdf : isDirIn (withParents fs (recoveredRel name))
              (recoveredRel name ++ ".tmp") = false :=
            Bool.eq_false_iff.mpr htd
          rcases hda2 : da cur content with _ | nb
          · refine Or.inr ⟨.corruptDelta (recoveredRel name),
              ⟨alUpsert fs.files (recoveredRel name ++ ".tmp") [],
                (withParents fs (recoveredRel name)).dirs⟩, ?_⟩
            simp only [applyEntry, hmkf, Bool.false_eq_true, if_false,
              withParents_files, hsnap, d1, htdf, hda2, if_true]
          · refine Or.inl ⟨⟨alUpsert
                (alErase (alUpsert fs.files (recoveredRel name ++ ".tmp") [])
                  (recoveredRel name ++ ".tmp")) (recoveredRel name) nb,
                (withParents fs (recoveredRel name)).dirs⟩, ?_, ?_⟩
            · simp only [applyEntry, hmkf, Bool.false_eq_true, if_false,
                withParents_files, hsnap, d1, htdf, hda2, if_true]
            · intro p hp1 hp2
              simp only
              rw [alLookup_upsert, if_neg (fun hc => hp1 hc.symm),
                alLookup_erase, if_neg (fun hc => hp2 hc.symm),
                alLookup_upsert, if_neg (fun hc => hp2 hc.symm)]
      · have d1 := decide_eq_false he1
        by_cases he2 : (splitext name).2 = ".full"
        · have d2 := decide_eq_true he2
          by_cases hdir : isDirIn (withParents fs (recoveredRel name))
              (recoveredRel name) = true
          · refine Or.inr ⟨.ioError (recoveredRel name),
              withParents fs (recoveredRel name), ?_⟩
            simp only [applyEntry, hmkf, Bool.false_eq_true, if_false,
              withParents_files, hsnap, d1, d2, hdir, if_true]
          · have hdirf : isDirIn (withParents fs (recoveredRel name))
                (recoveredRel name) = false := Bool.eq_false_iff.mpr hdir
            refine Or.inl ⟨⟨alUpsert fs.files (recoveredRel name) content,
              (withParents fs (recoveredRel name)).dirs⟩, ?_, ?_⟩
            · simp only [applyEntry, hmkf, Bool.false_eq_true, if_false,
                withParents_files, hsnap, d1, d2, hdirf, if_true]
            · intro p hp1 _
              simp only
              rw [alLookup_upsert, if_neg (fun hc => hp1 hc.symm)]
        · have d2 := decide_eq_false he2
          by_cases he3 : (splitext name).2 = ".delete"
          · have d3 := decide_eq_true he3
            refine Or.inl ⟨⟨alErase fs.files (recoveredRel name),
              (withParents fs (recoveredRel name)).dirs⟩, ?_, ?_⟩
            · simp only [applyEntry, hmkf, Bool.false_eq_true, if_false,
                withParents_files, hsnap, d1, d2, d3, if_true]
            · intro p hp1 _
              simp only
              rw [alLookup_erase, if_neg (fun hc => hp1 hc.symm)]
          · have d3 := decide_eq_false he3
            refine Or.inl ⟨withParents fs (recoveredRel name), ?_,
              fun p _ _ => rfl⟩
            simp only [applyEntry, hmkf, Bool.false_eq_true, if_false,
              withParents_files, hsnap, d1, d2, d3]

/-- Loop invariant: with pairwise-distinct entry targets none of which is
another target's `.tmp` scratch path, the rollback directory only ever
records pre-run content, whether the loop finishes or raises. -/
theorem applyEntries_rb_inv (da : Bytes → Bytes → Option Bytes) :
    ∀ (entries : List (String × Bytes)) (fs : FS) (rb : Tree) (fs0 : FS),
      ((entries.map (fun e => recoveredRel e.1)).Nodup) →
      (∀ t ∈ entries.map (fun e => recoveredRel e.1),
        ∀ u ∈ entries.map (fun e => recoveredRel e.1), ¬ t = u ++ ".tmp") →
      (∀ t ∈ entries.map (fun e => recoveredRel e.1),
        alLookup fs.files t = alLookup fs0.files t) →
      (∀ p b, alLookup rb p = some b → alLookup fs0.files p = some b) →
      (alKeys rb).Nodup →
      (∀ p b, alLookup (rbOf (applyEntries da entries fs rb)) p = some b →
        alLookup fs0.files p = some b) ∧
      (alKeys (rbOf (applyEntries da entries fs rb))).Nodup := by
  intro entries
  induction entries with
  | nil =>
    intro fs rb fs0 _ _ _ hrb hnd
    exact ⟨hrb, hnd⟩
  | cons e rest ih =>
    intro fs rb fs0 hnd htmp hagree hrb hrbnd
    simp only [List.map_cons, List.nodup_cons] at hnd
    have hrelmem : recoveredRel e.1 ∈
        (e :: rest).map (fun x => recoveredRel x.1) := by
      simp
    obtain ⟨rb1, hev, hcase⟩ := applyEntry_master da fs rb e.1 e.2
    have hrb1 : ∀ p b, alLookup rb1 p = some b →
        alLookup fs0.files p = some b := by
      rcases hev with hev | ⟨cur, hcur, hev⟩
      · exact hev ▸ hrb
      · intro p b hp
        rw [hev, alLookup_upsert] at hp
        by_cases hpe : recoveredRel e.1 = p
        · rw [if_pos hpe] at hp
          have := hagree (recoveredRel e.1) hrelmem
          rw [← hpe, ← this, hcur]
          exact hp ▸ rfl
        · rw [if_neg hpe] at hp
          exact hrb p b hp
    have hrb1nd : (alKeys rb1).Nodup := by
      rcases hev with hev | ⟨cur, _, hev⟩
      · exact hev ▸ hrbnd
      · exact hev ▸ alKeys_upsert_nodup rb (recoveredRel e.1) cur hrbnd
    rcases hcase with ⟨fs', hok, hframe⟩ | ⟨err, fsE, herr⟩
    · have hagree' : ∀ t ∈ rest.map (fun x => recoveredRel x.1),
          alLookup fs'.files t = alLookup fs0.files t := by
        intro t ht
        have htm : t ∈ (e :: rest).map (fun x => recoveredRel x.1) := by
          simp only [List.map_cons, List.mem_cons]
          exact Or.inr ht
        have h1 : ¬ t = recoveredRel e.1 := fun hc => hnd.1 (hc ▸ ht)
        have h2 : ¬ t = recoveredRel e.1 ++ ".tmp" :=
          htmp t htm (recoveredRel e.1) hrelmem
        rw [hframe t h1 h2]
        exact hagree t htm
      have htmp' : ∀ t ∈ rest.map (fun x => recoveredRel x.1),
          ∀ u ∈ rest.map (fun x => recoveredRel x.1), ¬ t = u ++ ".tmp" := by
        intro t ht u hu
        refine htmp t ?_ u ?_
        · simp only [List.map_cons, List.mem_cons]
          exact Or.inr ht
        · simp only [List.map_cons, List.mem_cons]
          exact Or.inr hu
      have := ih fs' rb1 fs0 hnd.2 htmp' hagree' hrb1 hrb1nd
      simpa only [applyEntries, hok] using this
    · have : rbOf (applyEntries da (e :: rest) fs rb) = rb1 := by
        simp only [applyEntries, herr, rbOf]
      rw [this]
      exact ⟨hrb1, hrb1nd⟩

/-! ### Cancellation during creation -/

theorem createLoopNew_idx (hashFn : Bytes → Digest)
    (dc : Bytes → Bytes → Bytes) (oldT : Tree) (cA : Option Nat) :
    ∀ (pending : List (RelPath × Bytes)) (idx : Nat) (m : Manifest)
      (es : List (String × Bytes)) (m2 : Manifest) (i2 : Nat),
      createLoopNew hashFn dc oldT cA pending idx m = .ok (es, m2, i2) →
      i2 = idx + pending.length := by
  intro pending
  induction pending with
  | nil =>
    intro idx m es m2 i2 h
    simp only [createLoopNew, Except.ok.injEq, Prod.mk.injEq] at h
    simp only [List.length_nil, Nat.add_zero]
    exact h.2.2.symm
  | cons pc rest ih =>
    intro idx m es m2 i2 h
    simp only [createLoopNew] at h
    by_cases hk : cA = some idx
    · rw [if_pos (by simp [hk])] at h
      exact absurd h (by simp)
    · rw [if_neg (by simp [hk])] at h
      rcases he : entryForNew dc oldT pc with e0 | oe
      · rw [he] at h
        exact absurd h (by simp)
      · rw [he] at h
        rcases oe with _ | ent
        · have := ih (idx + 1) _ es m2 i2 h
          rw [this, List.length_cons]
          omega
        · rcases hrec : createLoopNew hashFn dc oldT cA rest (idx + 1)
            (alUpsert m pc.1 ⟨hashFn pc.2, pc.2.length⟩) with e0 | ⟨es', m', i'⟩
          · rw [hrec] at h
            exact absurd h (by simp)
          · rw [hrec] at h
            have hi := ih (idx + 1) _ es' m' i' hrec
            simp only [Except.ok.injEq, Prod.mk.injEq] at h
            rw [← h.2.2, hi, List.length_cons]
            omega

theorem createLoopNew_cancelled (hashFn : Bytes → Digest)
    (dc : Bytes → Bytes → Bytes) (oldT : Tree) (k : Nat) :
    ∀ (pending : List (RelPath × Bytes)) (idx : Nat) (m : Manifest),
      idx ≤ k → k < idx + pending.length →
      ∃ e, createLoopNew hashFn dc oldT (some k) pending idx m =
        .error e := by
  intro pending
  induction pending with
  | nil =>
    intro idx m h1 h2
    simp only [List.length_nil] at h2
    omega
  | cons pc rest ih =>
    intro idx m h1 h2
    by_cases hk : k = idx
    · refine ⟨.cancelled, ?_⟩
      simp [createLoopNew, hk]
    · have h1' : idx + 1 ≤ k := by omega
      have h2' : k < (idx + 1) + rest.length := by
        rw [List.length_cons] at h2
        omega
      simp only [createLoopNew, if_neg (show ¬ decide
        ((some k : Option Nat) = some idx) = true by simp [hk])]
      rcases he : entryForNew dc oldT pc with e0 | oe
      · exact ⟨e0, rfl⟩
      · obtain ⟨e, hef⟩ := ih (idx + 1)
          (alUpsert m pc.1 ⟨hashFn pc.2, pc.2.length⟩) h1' h2'
        rcases oe with _ | ent
        · exact ⟨e, hef⟩
        · rw [hef]
          exact ⟨e, rfl⟩

theorem createLoopOld_cancelled (newT : Tree) (k : Nat) :
    ∀ (pending : List (RelPath × Bytes)) (idx : Nat),
      idx ≤ k → k < idx + pending.length →
      ∃ e, createLoopOld newT (some k) pending idx = .error e := by
  intro pending
  induction pending with
  | nil =>
    intro idx h1 h2
    simp only [List.length_nil] at h2
    omega
  | cons pc rest ih =>
    intro idx h1 h2
    by_cases hk : k = idx
    · refine ⟨.cancelled, ?_⟩
      simp [createLoopOld, hk]
    · have h1' : idx + 1 ≤ k := by omega
      have h2' : k < (idx + 1) + rest.length := by
        rw [List.length_cons] at h2
        omega
      obtain ⟨e, hef⟩ := ih (idx + 1) h1' h2'
      refine ⟨e, ?_⟩
      simp only [createLoopOld, if_neg (show ¬ decide
        ((some k : Option Nat) = some idx) = true by simp [hk]), hef]

/-! ### Remaining support lemmas -/

theorem insideAux_no_dotdot :
    ∀ (l : List String) (d : Nat), (∀ c ∈ l, ¬ c = "..") →
      insideAux l d = true := by
  intro l
  induction l with
  | nil => intro d _; rfl
  | cons c rest ih =>
    intro d h
    have hdd : ¬ c = ".." := h c (List.mem_cons_self c rest)
    have hrest := fun x hx => h x (List.mem_cons_of_mem c hx)
    by_cases h1 : (decide (c = "") || decide (c = ".")) = true
    · simp only [insideAux, h1, if_true]
      exact ih d hrest
    · simp only [insideAux, h1, Bool.false_eq_true, if_false,
        decide_eq_false hdd]
      exact ih (d + 1) hrest

theorem resolvesInside_true (rel : RelPath)
    (hhead : rel.data.head? ≠ some '/')
    (hcomp : ∀ c ∈ componentsOf rel, ¬ c = "..") :
    resolvesInside rel = true := by
  rcases hd : rel.data with _ | ⟨c, rest⟩
  · simp [resolvesInside, hd]
  · have hc : ¬ c = '/' := by
      intro hcc
      exact hhead (by rw [hd, hcc]; rfl)
    simp only [resolvesInside, hd]
    rw [if_neg (by simp [hc])]
    exact insideAux_no_dotdot (componentsOf rel) 0 hcomp

theorem alKeys_map_snd {β γ : Type} (l : List (String × β))
    (g : String × β → γ) :
    alKeys (l.map (fun pc => (pc.1, g pc))) = alKeys l := by
  simp [alKeys, List.map_map]

theorem filter_key_singleton {β : Type} (l : List (String × β))
    (k : String) (v : β) (hn : (alKeys l).Nodup) (hm : (k, v) ∈ l) :
    l.filter (fun e => decide (e.1 = k)) = [(k, v)] := by
  induction l with
  | nil => simp at hm
  | cons e t ih =>
    simp only [alKeys_cons, List.nodup_cons] at hn
    rcases List.mem_cons.mp hm with he | ht
    · have hkeys : k ∉ alKeys t := by
        rw [← he] at hn
        exact hn.1
      have hfilter : t.filter (fun e => decide (e.1 = k)) = [] := by
        rw [List.filter_eq_nil_iff]
        intro x hx
        simp only [decide_eq_true_eq]
        intro hc
        exact hkeys (hc ▸ List.mem_map.mpr ⟨x, hx, rfl⟩)
      rw [← he]
      simp [List.filter, hfilter]
    · have hek : ¬ e.1 = k := by
        intro hc
        exact hn.1 (hc ▸ List.mem_map.mpr ⟨(k, v), ht, rfl⟩)
      simp only [List.filter, decide_eq_false hek]
      exact ih hn.2 ht

theorem mem_val_unique {β : Type} (l : List (String × β)) (k : String)
    (v v' : β) (hn : (alKeys l).Nodup) (h1 : (k, v) ∈ l)
    (h2 : (k, v') ∈ l) : v = v' := by
  have e1 := alLookup_of_mem_nodup l k v hn h1
  have e2 := alLookup_of_mem_nodup l k v' hn h2
  rw [e1] at e2
  exact Option.some.inj e2

/-! ## The claims -/

/-- C1, counterexample to the claim as stated: the round trip fails for a
tree whose relative path contains the separator escape `"__"`.  With
`T_old = {}` and `T_new = {"a__b" ↦ [1]}`, creation succeeds and stores
`a__b.full`, but application recovers the relative path `"a/b"`, writes the
wrong file, and then fails validation on the missing path `"a__b"` — so
applying the created package to a copy of `T_old` does not succeed. -/
theorem c1_roundtrip_as_stated_counterexample :
    (create_patch idHash dcId [] [("a__b", [1])] none false).outcome =
      .ok ⟨[("a__b.full", [1])], [("a__b", ⟨[1], 1⟩)]⟩ ∧
    (apply_patch idHash daId ⟨[("a__b.full", [1])], [("a__b", ⟨[1], 1⟩)]⟩
      ⟨[], []⟩).outcome =
        .error (.validationFailed ["Missing file: a__b"]) ∧
    alLookup (apply_patch idHash daId
      ⟨[("a__b.full", [1])], [("a__b", ⟨[1], 1⟩)]⟩ ⟨[], []⟩).fs.files
        ("a/b") = some [1] := by
  refine ⟨by decide, by decide, by decide⟩

/-- C1 (amended): for every pair of trees whose paths survive the
escape/unescape round trip (no `"__"` substring, no `"_"` adjacent to a
separator), contain a non-dot character, are duplicate-free, never make one
tree path a directory prefix of another, and never collide with another
path's `<path>.tmp` scratch name, applying the package produced by
`create_patch(T_old, T_new)` to a byte-exact copy of `T_old` succeeds and
yields a tree whose file set and file contents are byte-identical to
`T_new` (given the external delta contract `da o (dc o n) = some n`). -/
theorem c1_roundtrip_amended (hashFn : Bytes → Digest)
    (dc : Bytes → Bytes → Bytes) (da : Bytes → Bytes → Option Bytes)
    (oldT newT : Tree) (hda : ∀ o n, da o (dc o n) = some n)
    (st : SafeTrees oldT newT) :
    ∃ pkg : Package,
      (create_patch hashFn dc oldT newT none false).outcome = .ok pkg ∧
      (create_patch hashFn dc oldT newT none false).dest = .complete pkg ∧
      (apply_patch hashFn da pkg ⟨oldT, []⟩).outcome = .ok () ∧
      ∀ p, alLookup (apply_patch hashFn da pkg ⟨oldT, []⟩).fs.files p =
        alLookup newT p :=
  roundtrip_core hashFn dc da oldT newT hda st

/-- C1 witness: the spec §8 scenario shape (one modified file, one unchanged
file, one added file in a subdirectory) satisfies the amended hypotheses and
round-trips. -/
theorem c1_roundtrip_amended_witness :
    (∀ o n, daId o (dcId o n) = some n) ∧
    SafeTrees [("a", [1]), ("b", [2])]
      [("a", [1, 2]), ("b", [2]), ("d/c", [3])] ∧
    (∃ pkg : Package,
      (create_patch idHash dcId [("a", [1]), ("b", [2])]
        [("a", [1, 2]), ("b", [2]), ("d/c", [3])] none false).outcome =
          .ok pkg ∧
      (create_patch idHash dcId [("a", [1]), ("b", [2])]
        [("a", [1, 2]), ("b", [2]), ("d/c", [3])] none false).dest =
          .complete pkg ∧
      (apply_patch idHash daId pkg
        ⟨[("a", [1]), ("b", [2])], []⟩).outcome = .ok () ∧
      ∀ p, alLookup (apply_patch idHash daId pkg
        ⟨[("a", [1]), ("b", [2])], []⟩).fs.files p =
          alLookup [("a", [1, 2]), ("b", [2]), ("d/c", [3])] p) :=
  ⟨fun _ _ => rfl,
   ⟨by decide, by decide, by decide, by decide, by decide, by decide⟩,
   c1_roundtrip_amended idHash dcId daId
     [("a", [1]), ("b", [2])] [("a", [1, 2]), ("b", [2]), ("d/c", [3])]
     (fun _ _ => rfl)
     ⟨by decide, by decide, by decide, by decide, by decide, by decide⟩⟩

/-- C2, counterexample to the claim as stated: a validation failure does
roll the applied entries back.  The single `.full` entry applies
successfully and overwrites `p` (pre-run `[3]`, applied `[7]`), validation
then fails on the missing manifest path `q`, and — contrary to the claim —
the `except` handler at main.py line 241 restores `p` to its pre-run
content `[3]` instead of leaving the applied state in place. -/
theorem c2_as_stated_counterexample :
    (apply_patch idHash daId ⟨[("p.full", [7])], [("q", ⟨[9], 1⟩)]⟩
      ⟨[("p", [3])], []⟩).outcome =
        .error (.validationFailed ["Missing file: q"]) ∧
    (apply_patch idHash daId ⟨[("p.full", [7])], [("q", ⟨[9], 1⟩)]⟩
      ⟨[("p", [3])], []⟩).fsAtCatch.files = [("p", [7])] ∧
    (apply_patch idHash daId ⟨[("p.full", [7])], [("q", ⟨[9], 1⟩)]⟩
      ⟨[("p", [3])], []⟩).fs.files = [("p", [3])] := by
  refine ⟨by decide, by decide, by decide⟩

/-- C2 (amended): when all entries apply successfully but post-apply digest
verification finds a mismatching or missing path, `apply_patch` raises a
validation failure listing every offending path and then performs the same
rollback as any other failure: every snapshot taken during the run is
copied back over its target before the error is re-raised. -/
theorem c2_validation_rollback_amended (hashFn : Bytes → Digest)
    (da : Bytes → Bytes → Option Bytes) (pkg : Package) (fs0 fs1 : FS)
    (rb1 : Tree) (errs : List String)
    (hrun : applyEntries da pkg.entries fs0 [] = .ok (fs1, rb1))
    (hval : validateManifest hashFn pkg.manifest fs1 = .ok errs)
    (hne : errs ≠ []) :
    (apply_patch hashFn da pkg fs0).outcome =
      .error (.validationFailed errs) ∧
    (apply_patch hashFn da pkg fs0).fs = restoreBackups fs1 rb1 := by
  rcases errs with _ | ⟨e0, es⟩
  · exact absurd rfl hne
  · rw [apply_patch]
    simp [hrun, hval]

/-- C2 witness: one overwritten file, one missing manifest path. -/
theorem c2_validation_rollback_witness :
    applyEntries daId (Package.entries ⟨[("x.full", [5])], [("y", ⟨[1], 1⟩)]⟩)
      ⟨[("x", [2])], []⟩ [] = .ok (⟨[("x", [5])], []⟩, [("x", [2])]) ∧
    validateManifest idHash
      (Package.manifest ⟨[("x.full", [5])], [("y", ⟨[1], 1⟩)]⟩)
      ⟨[("x", [5])], []⟩ = .ok ["Missing file: y"] ∧
    (["Missing file: y"] ≠ ([] : List String)) ∧
    ((apply_patch idHash daId ⟨[("x.full", [5])], [("y", ⟨[1], 1⟩)]⟩
      ⟨[("x", [2])], []⟩).outcome =
        .error (.validationFailed ["Missing file: y"]) ∧
     (apply_patch idHash daId ⟨[("x.full", [5])], [("y", ⟨[1], 1⟩)]⟩
      ⟨[("x", [2])], []⟩).fs =
        restoreBackups ⟨[("x", [5])], []⟩ [("x", [2])]) :=
  ⟨by decide, by decide, by decide,
   c2_validation_rollback_amended idHash daId
     ⟨[("x.full", [5])], [("y", ⟨[1], 1⟩)]⟩ ⟨[("x", [2])], []⟩
     ⟨[("x", [5])], []⟩ [("x", [2])] ["Missing file: y"]
     (by decide) (by decide) (by decide)⟩

/-- C3, counterexample to the claim as stated: when two entries target the
same path, the second snapshot overwrites the first, so rollback restores
mid-run content, not pre-run content.  Target `a/b` starts as `[0]`; the
delta entry snapshots `[0]` and writes `[1]`; the full entry snapshots
`[1]` (overwriting the backup) and writes `[2]`; the third entry fails with
a missing base, and rollback restores `a/b` to `[1]` — not its pre-run
`[0]`, although `a/b` was snapshotted before the failure. -/
theorem c3_as_stated_counterexample :
    (apply_patch idHash daId
      ⟨[("a__b.patch", [1]), ("a__b.full", [2]), ("c.patch", [9])], []⟩
      ⟨[("a/b", [0])], []⟩).outcome = .error (.missingBase ("c")) ∧
    (apply_patch idHash daId
      ⟨[("a__b.patch", [1]), ("a__b.full", [2]), ("c.patch", [9])], []⟩
      ⟨[("a/b", [0])], []⟩).rb = [("a/b", [1])] ∧
    alLookup (apply_patch idHash daId
      ⟨[("a__b.patch", [1]), ("a__b.full", [2]), ("c.patch", [9])], []⟩
      ⟨[("a/b", [0])], []⟩).fs.files ("a/b") = some [1] ∧
    ¬ ([1] : Bytes) = [0] := by
  refine ⟨by decide, by decide, by decide, by decide⟩

/-- C3 (amended): when no two entries of the package recover the same
target path and no recovered target equals another target's `<target>.tmp`
scratch name, a failing run restores every snapshotted path to its exact
pre-run byte content, and every path with no snapshot — in particular every
path newly created by earlier entries of the same run — keeps the content
it had when the failure was caught: rollback never deletes it. -/
theorem c3_rollback_amended (hashFn : Bytes → Digest)
    (da : Bytes → Bytes → Option Bytes) (pkg : Package) (fs0 : FS)
    (hnd : ((pkg.entries.map (fun e => recoveredRel e.1)).Nodup))
    (htmp : ∀ t ∈ pkg.entries.map (fun e => recoveredRel e.1),
      ∀ u ∈ pkg.entries.map (fun e => recoveredRel e.1), ¬ t = u ++ ".tmp")
    (err : ApplyErr)
    (hfail : (apply_patch hashFn da pkg fs0).outcome = .error err) :
    (∀ p b, alLookup (apply_patch hashFn da pkg fs0).rb p = some b →
      alLookup fs0.files p = some b ∧
      alLookup (apply_patch hashFn da pkg fs0).fs.files p = some b) ∧
    (∀ p, alLookup (apply_patch hashFn da pkg fs0).rb p = none →
      alLookup (apply_patch hashFn da pkg fs0).fs.files p =
        alLookup (apply_patch hashFn da pkg fs0).fsAtCatch.files p) := by
  have hinv := applyEntries_rb_inv da pkg.entries fs0 [] fs0 hnd htmp
    (fun t _ => rfl) (fun p b hp => absurd hp (by simp [alLookup]))
    (by simp [alKeys])
  rcases hrun : applyEntries da pkg.entries fs0 [] with ⟨e0, fsE, rbE⟩ | ⟨fs1, rb1⟩
  · rw [hrun] at hinv
    simp only [rbOf] at hinv
    have happ : apply_patch hashFn da pkg fs0 =
        ⟨.error e0, restoreBackups fsE rbE, rbE, fsE⟩ := by
      rw [apply_patch]
      simp only [hrun]
    rw [happ]
    simp only
    constructor
    · intro p b hp
      refine ⟨(hinv.1 p b hp).symm ▸ hinv.1 p b hp, ?_⟩
      rw [restoreBackups_lookup rbE fsE p hinv.2, hp]
    · intro p hp
      rw [restoreBackups_lookup rbE fsE p hinv.2, hp]
  · rw [hrun] at hinv
    simp only [rbOf] at hinv
    rcases hv : validateManifest hashFn pkg.manifest fs1 with p0 | errs
    · have happ : apply_patch hashFn da pkg fs0 =
          ⟨.error (.ioError p0), restoreBackups fs1 rb1, rb1, fs1⟩ := by
        rw [apply_patch]
        simp only [hrun, hv]
      rw [happ]
      simp only
      constructor
      · intro p b hp
        refine ⟨hinv.1 p b hp, ?_⟩
        rw [restoreBackups_lookup rb1 fs1 p hinv.2, hp]
      · intro p hp
        rw [restoreBackups_lookup rb1 fs1 p hinv.2, hp]
    · rcases errs with _ | ⟨e1, es⟩
      · have happ : apply_patch hashFn da pkg fs0 =
            ⟨.ok (), fs1, rb1, fs1⟩ := by
          rw [apply_patch]
          simp only [hrun, hv]
        rw [happ] at hfail
        exact absurd hfail (by simp)
      · have happ : apply_patch hashFn da pkg fs0 =
            ⟨.error (.validationFailed (e1 :: es)), restoreBackups fs1 rb1,
              rb1, fs1⟩ := by
          rw [apply_patch]
          simp only [hrun, hv]
        rw [happ]
        simp only
        constructor
        · intro p b hp
          refine ⟨hinv.1 p b hp, ?_⟩
          rw [restoreBackups_lookup rb1 fs1 p hinv.2, hp]
        · intro p hp
          rw [restoreBackups_lookup rb1 fs1 p hinv.2, hp]

/-- C3 witness: a created file followed by a failing delta entry; the
snapshotted path `x` is restored and the hypotheses hold. -/
theorem c3_rollback_amended_witness :
    ((Package.entries ⟨[("x.full", [5]), ("q.patch", [9])], []⟩).map
      (fun e => recoveredRel e.1)).Nodup ∧
    (∀ t ∈ (Package.entries ⟨[("x.full", [5]), ("q.patch", [9])], []⟩).map
        (fun e => recoveredRel e.1),
      ∀ u ∈ (Package.entries ⟨[("x.full", [5]), ("q.patch", [9])], []⟩).map
        (fun e => recoveredRel e.1), ¬ t = u ++ ".tmp") ∧
    (apply_patch idHash daId ⟨[("x.full", [5]), ("q.patch", [9])], []⟩
      ⟨[("x", [2])], []⟩).outcome = .error (.missingBase ("q")) ∧
    ((∀ p b, alLookup (apply_patch idHash daId
        ⟨[("x.full", [5]), ("q.patch", [9])], []⟩ ⟨[("x", [2])], []⟩).rb p =
          some b →
        alLookup (FS.files ⟨[("x", [2])], []⟩) p = some b ∧
        alLookup (apply_patch idHash daId
          ⟨[("x.full", [5]), ("q.patch", [9])], []⟩
          ⟨[("x", [2])], []⟩).fs.files p = some b) ∧
     (∀ p, alLookup (apply_patch idHash daId
        ⟨[("x.full", [5]), ("q.patch", [9])], []⟩ ⟨[("x", [2])], []⟩).rb p =
          none →
        alLookup (apply_patch idHash daId
          ⟨[("x.full", [5]), ("q.patch", [9])], []⟩
          ⟨[("x", [2])], []⟩).fs.files p =
        alLookup (apply_patch idHash daId
          ⟨[("x.full", [5]), ("q.patch", [9])], []⟩
          ⟨[("x", [2])], []⟩).fsAtCatch.files p)) :=
  ⟨by decide, by decide, by decide,
   c3_rollback_amended idHash daId ⟨[("x.full", [5]), ("q.patch", [9])], []⟩
     ⟨[("x", [2])], []⟩ (by decide) (by decide) (.missingBase ("q"))
     (by decide)⟩

/-- C4, counterexample to the claim as stated: a container entry named
`..__evil.full` is consumed without any check; the recovered relative path
is `../evil`, which resolves outside the target root, and the run happily
creates that file (and even reports success, since the manifest is empty).
Relative paths recovered from entry names can therefore encode directory
traversal outside the root. -/
theorem c4_as_stated_counterexample :
    recoveredRel ("..__evil.full") = "../evil" ∧
    resolvesInside ("../evil") = false ∧
    (apply_patch idHash daId ⟨[("..__evil.full", [1])], []⟩
      ⟨[], []⟩).outcome = .ok () ∧
    alLookup (apply_patch idHash daId ⟨[("..__evil.full", [1])], []⟩
      ⟨[], []⟩).fs.files ("../evil") = some [1] := by
  refine ⟨by decide, by decide, by decide, by decide⟩

/-- C4 (amended): the relative path recovered from a container entry name
stays inside the target tree root provided that, after the `"__"` → `"/"`
substitution, it does not begin with a separator and none of its components
is `".."`; entry names violating this (such as `..__evil.full`) resolve
outside the root and `apply_patch` performs no check against them. -/
theorem c4_inside_root_amended (name : String)
    (hhead : (recoveredRel name).data.head? ≠ some '/')
    (hcomp : ∀ c ∈ componentsOf (recoveredRel name), ¬ c = "..") :
    resolvesInside (recoveredRel name) = true :=
  resolvesInside_true (recoveredRel name) hhead hcomp

/-- C4 witness: an ordinary escaped name recovers a path inside the root. -/
theorem c4_inside_root_witness :
    ((recoveredRel ("a__b.full")).data.head? ≠ some '/') ∧
    (∀ c ∈ componentsOf (recoveredRel ("a__b.full")), ¬ c = "..") ∧
    resolvesInside (recoveredRel ("a__b.full")) = true :=
  ⟨by decide, by decide,
   c4_inside_root_amended ("a__b.full") (by decide) (by decide)⟩

/-- C5, counterexample to the claim as stated: the container-name mapping
`replace("/", "__")` collides — the distinct paths `a/b` and `a__b` get the
same container name — and the reader's reverse mapping does not recover
`a__b` (it yields `a/b`); moreover a package carrying such an ambiguous
entry name is not rejected as corrupt: applying it succeeds. -/
theorem c5_as_stated_counterexample :
    escapePath ("a/b") = "a__b" ∧
    escapePath ("a__b") = "a__b" ∧
    ¬ (("a/b" : String) = "a__b") ∧
    ¬ recoveredRel (escapePath ("a__b") ++ ".full") = "a__b" ∧
    (apply_patch idHash daId ⟨[("a__b.full", [1])], []⟩ ⟨[], []⟩).outcome =
      .ok () := by
  refine ⟨by decide, by decide, by decide, by decide, by decide⟩

/-- C5 (amended): on relative paths that survive the escape/unescape round
trip (no `"__"` substring and no `"_"` adjacent to a separator) and contain
a non-dot character, the mapping to container names is injective and the
reader recovers exactly the original path for each of the three entry
kinds; for other paths the mapping collides, and ambiguous names are not
rejected. -/
theorem c5_mapping_amended (p q : RelPath)
    (hp : unescapeName (escapePath p) = p)
    (hq : unescapeName (escapePath q) = q)
    (hd : (escapePath p).data.any (fun c => decide (c ≠ '.')) = true) :
    (escapePath p = escapePath q → p = q) ∧
    ∀ ext, (ext = ".patch" ∨ ext = ".full" ∨ ext = ".delete") →
      recoveredRel (escapePath p ++ ext) = p := by
  constructor
  · intro h
    rw [← hp, h, hq]
  · intro ext hext
    exact (recoveredRel_kind p ext hext hp hd).1

/-- C5 witness: the mapping is exact on the path `a/b`. -/
theorem c5_mapping_witness :
    unescapeName (escapePath ("a/b")) = "a/b" ∧
    unescapeName (escapePath ("x")) = "x" ∧
    ((escapePath ("a/b")).data.any (fun c => decide (c ≠ '.')) = true) ∧
    ((escapePath ("a/b") = escapePath ("x") → ("a/b" : String) = "x") ∧
     ∀ ext, (ext = ".patch" ∨ ext = ".full" ∨ ext = ".delete") →
       recoveredRel (escapePath ("a/b") ++ ext) = "a/b") :=
  ⟨by decide, by decide, by decide,
   c5_mapping_amended ("a/b") ("x") (by decide) (by decide) (by decide)⟩

/-- C6, counterexample to the claim as stated: `create_patch` opens the
destination directly (`open(patch_package, "wb")`, main.py line 147), so a
failure during the archive write leaves a half-written file at the
destination package path even though the run failed. -/
theorem c6_as_stated_counterexample :
    (create_patch idHash dcId [] [("a", [1])] none true).outcome =
      .error .writeFailed ∧
    (create_patch idHash dcId [] [("a", [1])] none true).dest =
      .halfWritten ∧
    ¬ (create_patch idHash dcId [] [("a", [1])] none true).dest =
      .absent := by
  refine ⟨by decide, by decide, by decide⟩

/-- C6 (amended): a failure before the archive-write phase — here,
cancellation at any checkpoint of the two creation loops — leaves no file
at the destination package path and surfaces an error; only a failure
during the archive write itself can leave a (half-written) file behind. -/
theorem c6_absent_before_write (hashFn : Bytes → Digest)
    (dc : Bytes → Bytes → Bytes) (oldT newT : Tree) (k : Nat)
    (hk : k < newT.length + oldT.length) :
    (create_patch hashFn dc oldT newT (some k) false).dest = .absent ∧
    ∃ e, (create_patch hashFn dc oldT newT (some k) false).outcome =
      .error e := by
  rcases h1 : createLoopNew hashFn dc oldT (some k) newT 0 [] with
    e0 | ⟨es, m, i2⟩
  · rw [create_patch, h1]
    exact ⟨rfl, e0, rfl⟩
  · have hi2 : i2 = 0 + newT.length :=
      createLoopNew_idx hashFn dc oldT (some k) newT 0 [] es m i2 h1
    have hge : ¬ k < newT.length := by
      intro hlt
      obtain ⟨e, he⟩ := createLoopNew_cancelled hashFn dc oldT k newT 0 []
        (Nat.zero_le k) (by omega)
      rw [h1] at he
      exact absurd he (by simp)
    obtain ⟨e, he⟩ := createLoopOld_cancelled newT k oldT i2
      (by omega) (by omega)
    rw [create_patch]
    simp only [h1, he]
    exact ⟨trivial, e, rfl⟩

/-- C6 witness: cancelling at the second checkpoint of a two-file run. -/
theorem c6_absent_before_write_witness :
    1 < (List.length ([("a", [1])] : Tree)) +
      (List.length ([("z", [2])] : Tree)) ∧
    ((create_patch idHash dcId [("z", [2])] [("a", [1])]
      (some 1) false).dest = .absent ∧
     ∃ e, (create_patch idHash dcId [("z", [2])] [("a", [1])]
      (some 1) false).outcome = .error e) :=
  ⟨by decide,
   c6_absent_before_write idHash dcId [("z", [2])] [("a", [1])] 1
     (by decide)⟩

/-- C7: for every relative path whose file exists with byte-identical
content in both trees, the created package contains no entry whose
recovered path is that path — absence of an entry is the only no-change
signal — while the path still appears in the manifest with its digest
(stated for well-behaved trees, where "entry for that path" is
unambiguous). -/
theorem c7_unchanged_omitted (hashFn : Bytes → Digest)
    (dc : Bytes → Bytes → Bytes) (oldT newT : Tree)
    (st : SafeTrees oldT newT) (p : RelPath) (c : Bytes)
    (hold : alLookup oldT p = some c) (hnew : (p, c) ∈ newT) :
    ∃ pkg : Package,
      (create_patch hashFn dc oldT newT none false).outcome = .ok pkg ∧
      (∀ e ∈ pkg.entries, ¬ recoveredRel e.1 = p) ∧
      alLookup pkg.manifest p = some ⟨hashFn c, c.length⟩ := by
  refine ⟨⟨newT.filterMap (newEntry dc oldT) ++
      oldT.filterMap (delEntry newT),
      newT.map (fun pc => (pc.1, (⟨hashFn pc.2, pc.2.length⟩ : FileInfo)))⟩,
    by rw [create_patch_safe hashFn dc oldT newT st], ?_, ?_⟩
  · intro e he hrel
    rcases List.mem_append.mp he with hA | hB
    · obtain ⟨qc, hqc, hFq⟩ := List.mem_filterMap.mp hA
      have hqall : qc.1 ∈ allPaths oldT newT :=
        List.mem_append.mpr (Or.inr (List.mem_map.mpr ⟨qc, hqc, rfl⟩))
      have hrec : recoveredRel e.1 = qc.1 := by
        rcases newEntry_name dc oldT qc e hFq with hh | hh
        · rw [hh]
          exact (recoveredRel_kind qc.1 (".patch") (Or.inl rfl)
            (st.roundName qc.1 hqall) (st.nonDot qc.1 hqall)).1
        · rw [hh]
          exact (recoveredRel_kind qc.1 (".full") (Or.inr (Or.inl rfl))
            (st.roundName qc.1 hqall) (st.nonDot qc.1 hqall)).1
      have hq1 : qc.1 = p := hrec.symm.trans hrel
      have heta : (qc.1, qc.2) ∈ newT := by
        have : qc = (qc.1, qc.2) := rfl
        rw [← this]
        exact hqc
      have hqc2 : qc.2 = c :=
        mem_val_unique newT p qc.2 c st.nodupNew (hq1 ▸ heta) hnew
      have hnone : newEntry dc oldT qc = none := by
        simp [newEntry, hq1, hqc2, hold]
      rw [hnone] at hFq
      exact Option.noConfusion hFq
    · obtain ⟨qc, hqc, hFq⟩ := List.mem_filterMap.mp hB
      have hqall : qc.1 ∈ allPaths oldT newT :=
        List.mem_append.mpr (Or.inl (List.mem_map.mpr ⟨qc, hqc, rfl⟩))
      have hrec : recoveredRel e.1 = qc.1 := by
        rw [delEntry_name newT qc e hFq]
        exact (recoveredRel_kind qc.1 (".delete") (Or.inr (Or.inr rfl))
          (st.roundName qc.1 hqall) (st.nonDot qc.1 hqall)).1
      have hq1 : qc.1 = p := hrec.symm.trans hrel
      have hex : existsInTree newT qc.1 = false := by
        by_cases hx : existsInTree newT qc.1 = true
        · unfold delEntry at hFq
          rw [if_pos (by simp [hx])] at hFq
          exact absurd hFq (by simp)
        · exact Bool.eq_false_iff.mpr hx
      rw [hq1] at hex
      have hlook : alLookup newT p = some c :=
        alLookup_of_mem_nodup newT p c st.nodupNew hnew
      rw [existsInTree_true_of_lookup newT p c hlook] at hex
      exact Bool.noConfusion hex
  · exact alLookup_of_mem_nodup _ p _
      (by rw [alKeys_map_snd]; exact st.nodupNew)
      (List.mem_map.mpr ⟨(p, c), hnew, rfl⟩)

/-- C7 witness: the path `b` carries identical bytes in both trees; the
created package has no entry for it but manifests it. -/
theorem c7_unchanged_omitted_witness :
    SafeTrees [("b", [2]), ("u", [9])] [("a", [1]), ("b", [2])] ∧
    alLookup ([("b", [2]), ("u", [9])] : Tree) ("b") = some [2] ∧
    ((("b" : String), ([2] : Bytes)) ∈ ([("a", [1]), ("b", [2])] : Tree)) ∧
    (∃ pkg : Package,
      (create_patch idHash dcId [("b", [2]), ("u", [9])]
        [("a", [1]), ("b", [2])] none false).outcome = .ok pkg ∧
      (∀ e ∈ pkg.entries, ¬ recoveredRel e.1 = "b") ∧
      alLookup pkg.manifest ("b") = some ⟨idHash [2], 1⟩) := by
  refine ⟨⟨by decide, by decide, by decide, by decide, by decide, by decide⟩,
    by decide, by decide, ?_⟩
  have := c7_unchanged_omitted idHash dcId [("b", [2]), ("u", [9])]
    [("a", [1]), ("b", [2])]
    ⟨by decide, by decide, by decide, by decide, by decide, by decide⟩
    ("b") [2] (by decide) (by decide)
  simpa using this

/-- C8: manifest completeness — for every file of the new tree the created
package's manifest holds exactly one record for its path, carrying the
content digest of the new file and its byte count. -/
theorem c8_manifest_complete (hashFn : Bytes → Digest)
    (dc : Bytes → Bytes → Bytes) (oldT newT : Tree)
    (st : SafeTrees oldT newT) (p : RelPath) (c : Bytes)
    (hnew : (p, c) ∈ newT) :
    ∃ pkg : Package,
      (create_patch hashFn dc oldT newT none false).outcome = .ok pkg ∧
      pkg.manifest.filter (fun e => decide (e.1 = p)) =
        [(p, ⟨hashFn c, c.length⟩)] ∧
      alLookup pkg.manifest p = some ⟨hashFn c, c.length⟩ := by
  refine ⟨⟨newT.filterMap (newEntry dc oldT) ++
      oldT.filterMap (delEntry newT),
      newT.map (fun pc => (pc.1, (⟨hashFn pc.2, pc.2.length⟩ : FileInfo)))⟩,
    by rw [create_patch_safe hashFn dc oldT newT st], ?_, ?_⟩
  · exact filter_key_singleton _ p _
      (by rw [alKeys_map_snd]; exact st.nodupNew)
      (List.mem_map.mpr ⟨(p, c), hnew, rfl⟩)
  · exact alLookup_of_mem_nodup _ p _
      (by rw [alKeys_map_snd]; exact st.nodupNew)
      (List.mem_map.mpr ⟨(p, c), hnew, rfl⟩)

/-- C8 witness: the added file `a` is manifested exactly once with its
digest and size. -/
theorem c8_manifest_complete_witness :
    SafeTrees [("b", [2])] [("a", [1, 1]), ("b", [2])] ∧
    ((("a" : String), ([1, 1] : Bytes)) ∈
      ([("a", [1, 1]), ("b", [2])] : Tree)) ∧
    (∃ pkg : Package,
      (create_patch idHash dcId [("b", [2])] [("a", [1, 1]), ("b", [2])]
        none false).outcome = .ok pkg ∧
      pkg.manifest.filter (fun e => decide (e.1 = "a")) =
        [("a", ⟨idHash [1, 1], 2⟩)] ∧
      alLookup pkg.manifest ("a") = some ⟨idHash [1, 1], 2⟩) := by
  refine ⟨⟨by decide, by decide, by decide, by decide, by decide, by decide⟩,
    by decide, ?_⟩
  have := c8_manifest_complete idHash dcId [("b", [2])]
    [("a", [1, 1]), ("b", [2])]
    ⟨by decide, by decide, by decide, by decide, by decide, by decide⟩
    ("a") [1, 1] (by decide)
  simpa using this

/-- C9, counterexample to the claim as stated: applying a Deletion entry
for an absent target is not a no-op on the target tree.  The entry
`a__b.delete` on an empty tree removes nothing, yet
`target_file.parent.mkdir(parents=True, exist_ok=True)` (main.py 201) runs
before the kind dispatch, so the directory `a` is created inside the target
tree. -/
theorem c9_as_stated_counterexample :
    (apply_patch idHash daId ⟨[("a__b.delete", deleteBytes)], []⟩
      ⟨[], []⟩).outcome = .ok () ∧
    (apply_patch idHash daId ⟨[("a__b.delete", deleteBytes)], []⟩
      ⟨[], []⟩).fs.files = [] ∧
    (apply_patch idHash daId ⟨[("a__b.delete", deleteBytes)], []⟩
      ⟨[], []⟩).fs.dirs = ["a"] ∧
    ¬ (apply_patch idHash daId ⟨[("a__b.delete", deleteBytes)], []⟩
      ⟨[], []⟩).fs = (⟨[], []⟩ : FS) := by
  refine ⟨by decide, by decide, by decide, by decide⟩

/-- C9 (amended): a Deletion entry removes the target file when it exists
(after snapshotting it); when the target is absent it changes no file of
the target tree, but it does create the target's missing parent
directories, so the tree is not in general left entirely unchanged. -/
theorem c9_delete_amended (da : Bytes → Bytes → Option Bytes) (fs : FS)
    (rb : Tree) (name : String) (content : Bytes) (p : RelPath)
    (hrel : recoveredRel name = p)
    (hext : (splitext name).2 = ".delete")
    (hmk : mkdirFails fs.files p = false) :
    (∀ b, alLookup fs.files p = some b →
      applyEntry da fs rb name content =
        .ok (⟨alErase fs.files p, (withParents fs p).dirs⟩,
             alUpsert rb p b)) ∧
    (alLookup fs.files p = none → isDirIn (withParents fs p) p = false →
      applyEntry da fs rb name content = .ok (withParents fs p, rb)) :=
  ⟨fun b hb =>
    applyEntry_delete_present da fs rb name content p b hrel hext hmk hb,
   fun h1 h2 =>
    applyEntry_delete_absent da fs rb name content p hrel hext hmk h1 h2⟩

/-- C9 witness: deleting the present file `d/e` and, on the same state, the
absent target of the same entry name after erasure. -/
theorem c9_delete_amended_witness :
    recoveredRel ("d__e.delete") = "d/e" ∧
    (splitext ("d__e.delete")).2 = ".delete" ∧
    mkdirFails (FS.files ⟨[("d/e", [3])], []⟩) ("d/e") = false ∧
    ((∀ b, alLookup (FS.files ⟨[("d/e", [3])], []⟩) ("d/e") = some b →
      applyEntry daId ⟨[("d/e", [3])], []⟩ [] ("d__e.delete") deleteBytes =
        .ok (⟨alErase (FS.files ⟨[("d/e", [3])], []⟩) ("d/e"),
              (withParents ⟨[("d/e", [3])], []⟩ ("d/e")).dirs⟩,
             alUpsert [] ("d/e") b)) ∧
     (alLookup (FS.files ⟨[("d/e", [3])], []⟩) ("d/e") = none →
      isDirIn (withParents ⟨[("d/e", [3])], []⟩ ("d/e")) ("d/e") = false →
      applyEntry daId ⟨[("d/e", [3])], []⟩ [] ("d__e.delete") deleteBytes =
        .ok (withParents ⟨[("d/e", [3])], []⟩ ("d/e"), []))) :=
  ⟨by decide, by decide, by decide,
   c9_delete_amended daId ⟨[("d/e", [3])], []⟩ [] ("d__e.delete")
     deleteBytes ("d/e") (by decide) (by decide) (by decide)⟩

/-- C10 (implicit): when delta reconstruction fails, the partially written
scratch file `<target>.tmp` created inside the target tree is not removed
by the failure path — rollback restores the snapshotted target content but
leaves the scratch file behind. -/
theorem c10_tmp_left_behind (hashFn : Bytes → Digest)
    (da : Bytes → Bytes → Option Bytes) (fs0 : FS) (mf : Manifest)
    (name : String) (delta base : Bytes) (p : RelPath)
    (hrel : recoveredRel name = p)
    (hext : (splitext name).2 = ".patch")
    (hmk : mkdirFails fs0.files p = false)
    (hbase : alLookup fs0.files p = some base)
    (htmpdir : isDirIn (withParents fs0 p) (p ++ ".tmp") = false)
    (hda : da base delta = none) :
    (apply_patch hashFn da ⟨[(name, delta)], mf⟩ fs0).outcome =
      .error (.corruptDelta p) ∧
    alLookup (apply_patch hashFn da ⟨[(name, delta)], mf⟩ fs0).fs.files
      (p ++ ".tmp") = some [] ∧
    alLookup (apply_patch hashFn da ⟨[(name, delta)], mf⟩ fs0).fs.files p =
      some base ∧
    (apply_patch hashFn da ⟨[(name, delta)], mf⟩ fs0).rb = [(p, base)] := by
  have hstep : applyEntry da fs0 [] name delta =
      .error (.corruptDelta p,
        ⟨alUpsert fs0.files (p ++ ".tmp") [], (withParents fs0 p).dirs⟩,
        alUpsert [] p base) := by
    simp only [applyEntry, hrel, hext, hmk, Bool.false_eq_true, if_false,
      withParents_files, hbase, decide_True, if_true, htmpdir, hda]
  have happ : apply_patch hashFn da ⟨[(name, delta)], mf⟩ fs0 =
      ⟨.error (.corruptDelta p),
       restoreBackups
         ⟨alUpsert fs0.files (p ++ ".tmp") [], (withParents fs0 p).dirs⟩
         (alUpsert [] p base),
       alUpsert [] p base,
       ⟨alUpsert fs0.files (p ++ ".tmp") [], (withParents fs0 p).dirs⟩⟩ := by
    rw [apply_patch]
    simp only [applyEntries, hstep]
  have hne : ¬ p = p ++ ".tmp" := by
    intro hc
    have hlen := congrArg (fun s : String => s.data.length) hc
    simp only [strData_append, List.length_append] at hlen
    rw [show (String.data (".tmp")).length = 4 from rfl] at hlen
    omega
  have hrbeq : alUpsert ([] : Tree) p base = [(p, base)] := rfl
  have hnd : (alKeys ([(p, base)] : Tree)).Nodup := by
    simp [alKeys]
  have hlook1 : alLookup ([(p, base)] : Tree) (p ++ ".tmp") = none := by
    simp [alLookup, hne]
  have hlook2 : alLookup ([(p, base)] : Tree) p = some base := by
    simp [alLookup]
  rw [happ]
  refine ⟨rfl, ?_, ?_, hrbeq⟩
  · rw [hrbeq, restoreBackups_lookup [(p, base)] _ _ hnd, hlook1]
    simp only
    rw [alLookup_upsert, if_pos rfl]
  · rw [hrbeq, restoreBackups_lookup [(p, base)] _ _ hnd, hlook2]

/-- C10 witness: a failing delta on target `x` leaves `x.tmp` behind while
`x` itself is rolled back. -/
theorem c10_tmp_left_behind_witness :
    recoveredRel ("x.patch") = "x" ∧
    (splitext ("x.patch")).2 = ".patch" ∧
    mkdirFails (FS.files ⟨[("x", [1])], []⟩) ("x") = false ∧
    alLookup (FS.files ⟨[("x", [1])], []⟩) ("x") = some [1] ∧
    isDirIn (withParents ⟨[("x", [1])], []⟩ ("x")) ("x.tmp") = false ∧
    daFail [1] [9] = none ∧
    ((apply_patch idHash daFail ⟨[("x.patch", [9])], []⟩
        ⟨[("x", [1])], []⟩).outcome = .error (.corruptDelta ("x")) ∧
     alLookup (apply_patch idHash daFail ⟨[("x.patch", [9])], []⟩
        ⟨[("x", [1])], []⟩).fs.files ("x" ++ ".tmp") = some [] ∧
     alLookup (apply_patch idHash daFail ⟨[("x.patch", [9])], []⟩
        ⟨[("x", [1])], []⟩).fs.files ("x") = some [1] ∧
     (apply_patch idHash daFail ⟨[("x.patch", [9])], []⟩
        ⟨[("x", [1])], []⟩).rb = [("x", [1])]) :=
  ⟨by decide, by decide, by decide, by decide, by decide, rfl,
   c10_tmp_left_behind idHash daFail ⟨[("x", [1])], []⟩ [] ("x.patch")
     [9] [1] ("x") (by decide) (by decide) (by decide) (by decide)
     (by decide) rfl⟩

end PatcherUI
